import Mathlib

/-!
Verification development for the Commits repository (GitHub contributor
statistics aggregation).  The Python modules `author_mapper.py`,
`github_stats.py`, `weekly_performance_analyzer.py` and `pr_metrics.py`
are shallowly embedded below: Python dicts become association lists with
first-match lookup and in-place update, absent dict keys become `Option`
fields, functions that can raise become `Except String` computations, and
machine-independent integer arithmetic is carried out on `Int`/`Nat`.
-/

set_option autoImplicit false

namespace Commits

/-! ### Association lists modelling Python dicts

A Python dict is modelled as a `List (κ × β)` whose entries appear in
insertion order.  `alGet` is `dict.get` (first matching key), `alUpdate`
is the read-modify-write pattern `d[k] = f(d.get(k, dflt))` used both for
plain assignment (`f` constant) and for `defaultdict` accumulation: an
existing key is updated in place, a fresh key is appended at the end. -/

variable {κ β : Type} [DecidableEq κ]

def alGet (l : List (κ × β)) (k : κ) : Option β :=
  match l with
  | [] => none
  | (k', v) :: rest => if k' = k then some v else alGet rest k

def alUpdate (l : List (κ × β)) (k : κ) (f : β → β) (dflt : β) : List (κ × β) :=
  match l with
  | [] => [(k, f dflt)]
  | (k', v) :: rest =>
      if k' = k then (k', f v) :: rest else (k', v) :: alUpdate rest k f dflt

theorem alGet_update_self (l : List (κ × β)) (k : κ) (f : β → β) (dflt : β) :
    alGet (alUpdate l k f dflt) k = some (f ((alGet l k).getD dflt)) := by
  induction l with
  | nil => simp [alGet, alUpdate]
  | cons p rest ih =>
      obtain ⟨k', v⟩ := p
      by_cases h : k' = k <;> simp [alGet, alUpdate, h, ih]

theorem alGet_update_other (l : List (κ × β)) {k k' : κ} (f : β → β) (dflt : β)
    (h : k' ≠ k) : alGet (alUpdate l k f dflt) k' = alGet l k' := by
  induction l with
  | nil =>
      simp only [alGet, alUpdate]
      exact if_neg (fun hh => h (Eq.symm hh))
  | cons p rest ih =>
      obtain ⟨k₀, v⟩ := p
      by_cases h0 : k₀ = k
      · subst h0
        simp only [alUpdate, if_pos rfl, alGet,
          if_neg (fun hh : k₀ = k' => h (Eq.symm hh))]
      · simp only [alUpdate, if_neg h0, alGet]
        by_cases h1 : k₀ = k' <;> simp [h1, ih]

theorem alGet_assign (l : List (κ × β)) (key k : κ) (c : β) :
    alGet (alUpdate l key (fun _ => c) c) k = if k = key then some c else alGet l k := by
  by_cases h : k = key
  · subst h
    rw [alGet_update_self]
    simp
  · rw [alGet_update_other _ _ _ h, if_neg h]

theorem alUpdate_map_fst (l : List (κ × β)) (k : κ) (f : β → β) (dflt : β) :
    (alUpdate l k f dflt).map Prod.fst =
      (if k ∈ l.map Prod.fst then l.map Prod.fst else l.map Prod.fst ++ [k]) := by
  induction l with
  | nil => simp [alUpdate]
  | cons p rest ih =>
      obtain ⟨k₀, v⟩ := p
      by_cases h0 : k₀ = k
      · subst h0; simp [alUpdate]
      · by_cases hk : k ∈ rest.map Prod.fst <;>
          simp [alUpdate, h0, hk, ih, Ne.symm h0]

theorem alGet_mem {l : List (κ × β)} {k : κ} {v : β} (h : alGet l k = some v) :
    (k, v) ∈ l := by
  induction l with
  | nil => simp [alGet] at h
  | cons p rest ih =>
      obtain ⟨k', v'⟩ := p
      by_cases hk : k' = k
      · subst hk
        simp [alGet] at h
        simp [h]
      · simp [alGet, hk] at h
        exact List.mem_cons_of_mem _ (ih h)

theorem alGet_eq_none {l : List (κ × β)} {k : κ} :
    alGet l k = none ↔ k ∉ l.map Prod.fst := by
  induction l with
  | nil => simp [alGet]
  | cons p rest ih =>
      obtain ⟨k', v'⟩ := p
      by_cases hk : k' = k
      · subst hk; simp [alGet]
      · simp [alGet, hk, ih, Ne.symm hk]

theorem alGet_of_mem_nodup :
    ∀ {l : List (κ × β)}, (l.map Prod.fst).Nodup →
      ∀ {k : κ} {v : β}, (k, v) ∈ l → alGet l k = some v := by
  intro l
  induction l with
  | nil =>
      intro _ k v hm
      cases hm
  | cons p rest ih =>
      intro hn k v hm
      obtain ⟨k', v'⟩ := p
      simp only [List.map_cons, List.nodup_cons] at hn
      rcases List.mem_cons.mp hm with h | h
      · injection h.symm with h1 h2
        subst h1
        subst h2
        simp [alGet]
      · have hk : k' ≠ k := by
          intro e
          subst e
          exact hn.1 (List.mem_map_of_mem Prod.fst h)
        simp only [alGet, if_neg hk]
        exact ih hn.2 h

theorem alGet_of_nodup {l : List (κ × β)} (hn : (l.map Prod.fst).Nodup)
    {k : κ} {v : β} : (k, v) ∈ l ↔ alGet l k = some v :=
  ⟨alGet_of_mem_nodup hn, alGet_mem⟩

theorem alGet_eq_of_perm {l l' : List (κ × β)} (hp : l.Perm l')
    (hn : (l.map Prod.fst).Nodup) (k : κ) : alGet l k = alGet l' k := by
  have hn' : (l'.map Prod.fst).Nodup := ((hp.map Prod.fst).nodup_iff).mp hn
  cases h : alGet l k with
  | some v =>
      exact ((alGet_of_nodup hn' (k := k) (v := v)).mp
        (hp.mem_iff.mp (alGet_mem h))).symm ▸ rfl
  | none =>
      have : k ∉ l'.map Prod.fst := by
        intro hk
        exact (alGet_eq_none.mp h) (((hp.map Prod.fst).mem_iff).mpr hk)
      exact (alGet_eq_none.mpr this).symm

/-! ### ASCII case conversion

Python's `str.lower()` / `str.upper()` restricted to ASCII, which is the
alphabet of GitHub usernames.  The letter correspondence is given by an
explicit table. -/

def lowerPairs : List (Char × Char) :=
  [('A','a'), ('B','b'), ('C','c'), ('D','d'), ('E','e'), ('F','f'),
   ('G','g'), ('H','h'), ('I','i'), ('J','j'), ('K','k'), ('L','l'),
   ('M','m'), ('N','n'), ('O','o'), ('P','p'), ('Q','q'), ('R','r'),
   ('S','s'), ('T','t'), ('U','u'), ('V','v'), ('W','w'), ('X','x'),
   ('Y','y'), ('Z','z')]

def upperPairs : List (Char × Char) := lowerPairs.map (fun p => (p.2, p.1))

def pyCharLower (c : Char) : Char := (alGet lowerPairs c).getD c

def pyCharUpper (c : Char) : Char := (alGet upperPairs c).getD c

def pyLower (s : String) : String := ⟨s.data.map pyCharLower⟩

def pyUpper (s : String) : String := ⟨s.data.map pyCharUpper⟩

theorem pyCharLower_pyCharUpper (c : Char) :
    pyCharLower (pyCharUpper c) = pyCharLower c := by
  have key : ∀ p ∈ upperPairs, pyCharLower p.2 = pyCharLower p.1 := by decide
  unfold pyCharUpper
  cases h : alGet upperPairs c with
  | none => rfl
  | some u => simpa using key (c, u) (alGet_mem h)

theorem pyCharLower_pyCharLower (c : Char) :
    pyCharLower (pyCharLower c) = pyCharLower c := by
  have key : ∀ p ∈ lowerPairs, pyCharLower p.2 = p.2 := by decide
  unfold pyCharLower
  cases h : alGet lowerPairs c with
  | none =>
      simpa [pyCharLower] using congrArg (fun o => (Option.getD o c)) h
  | some u => simpa [pyCharLower] using key (c, u) (alGet_mem h)

theorem pyLower_pyUpper (s : String) : pyLower (pyUpper s) = pyLower s := by
  obtain ⟨data⟩ := s
  show String.mk ((data.map pyCharUpper).map pyCharLower) = String.mk (data.map pyCharLower)
  rw [List.map_map]
  exact congrArg String.mk
    (List.map_congr_left (fun c _ => pyCharLower_pyCharUpper c))

theorem pyLower_pyLower (s : String) : pyLower (pyLower s) = pyLower s := by
  obtain ⟨data⟩ := s
  show String.mk ((data.map pyCharLower).map pyCharLower) = String.mk (data.map pyCharLower)
  rw [List.map_map]
  exact congrArg String.mk
    (List.map_congr_left (fun c _ => pyCharLower_pyCharLower c))

theorem pyLower_eq_empty {s : String} (h : pyLower s = "") : s = "" := by
  obtain ⟨data⟩ := s
  have h2 : data.map pyCharLower = [] := congrArg String.data h
  have h3 : data = [] := List.map_eq_nil_iff.mp h2
  subst h3
  rfl

theorem pyUpper_eq_empty {s : String} (h : pyUpper s = "") : s = "" := by
  obtain ⟨data⟩ := s
  have h2 : data.map pyCharUpper = [] := congrArg String.data h
  have h3 : data = [] := List.map_eq_nil_iff.mp h2
  subst h3
  rfl

/-! ### Author mapper (`author_mapper.py`)

`AliasTable` is the parsed alias configuration: canonical display name to
list of alias strings, in file order.  `build_reverse_mapping` and
`get_canonical_name` mirror `AuthorMapper.build_reverse_mapping` and
`AuthorMapper.get_canonical_name` (lines 59-99). -/

abbrev AliasTable := List (String × List String)

def brmAliases (cn : String) (m : List (String × String)) (aliases : List String) :
    List (String × String) :=
  aliases.foldl (fun m a => alUpdate m (pyLower a) (fun _ => cn) cn) m

def brmStep (m : List (String × String)) (p : String × List String) :
    List (String × String) :=
  alUpdate (brmAliases p.1 m p.2) (pyLower p.1) (fun _ => p.1) p.1

def build_reverse_mapping (t : AliasTable) : List (String × String) :=
  t.foldl brmStep []

def get_canonical_name (t : AliasTable) (username : String) : String :=
  if username = "" then username
  else
    match alGet (build_reverse_mapping t) (pyLower username) with
    | some canonical => if canonical = "" then username else canonical
    | none => username

/-- `x` occurs in the alias table, either as a declared alias of some
canonical name or as a canonical name itself. -/
def Declared (t : AliasTable) (x : String) : Prop :=
  ∃ p ∈ t, x ∈ p.2 ∨ x = p.1

theorem brmAliases_get {cn : String} {as : List String}
    {m : List (String × String)} {k : String} {c : String}
    (h : alGet (brmAliases cn m as) k = some c) :
    alGet m k = some c ∨ c = cn := by
  induction as generalizing m with
  | nil => exact Or.inl h
  | cons a as ih =>
      rcases ih h with h2 | h2
      · rw [alGet_assign] at h2
        by_cases hk : k = pyLower a
        · rw [if_pos hk] at h2
          exact Or.inr (Option.some.inj h2).symm
        · rw [if_neg hk] at h2
          exact Or.inl h2
      · exact Or.inr h2

theorem brmStep_get {m : List (String × String)} {p : String × List String}
    {k c : String} (h : alGet (brmStep m p) k = some c) :
    alGet m k = some c ∨ c = p.1 := by
  unfold brmStep at h
  rw [alGet_assign] at h
  by_cases hk : k = pyLower p.1
  · rw [if_pos hk] at h
    exact Or.inr (Option.some.inj h).symm
  · rw [if_neg hk] at h
    exact brmAliases_get h

theorem brmFold_values (P : String → Prop) :
    ∀ (t : AliasTable) (m : List (String × String)),
      (∀ k c, alGet m k = some c → P c) → (∀ p ∈ t, P p.1) →
      ∀ k c, alGet (t.foldl brmStep m) k = some c → P c := by
  intro t
  induction t with
  | nil => exact fun m hm _ => hm
  | cons p rest ih =>
      intro m hm ht k c h
      refine ih (brmStep m p) ?_ (fun q hq => ht q (List.mem_cons_of_mem _ hq)) k c h
      intro k' c' h'
      rcases brmStep_get h' with h2 | h2
      · exact hm k' c' h2
      · exact h2 ▸ ht p (List.mem_cons_self _ _)

theorem build_reverse_mapping_values {t : AliasTable} {k c : String}
    (h : alGet (build_reverse_mapping t) k = some c) : c ∈ t.map Prod.fst :=
  brmFold_values (· ∈ t.map Prod.fst) t []
    (fun _ _ h' => by cases h') (fun p hp => List.mem_map_of_mem Prod.fst hp) k c h

theorem alGet_assign_isSome_mono {l : List (κ × β)} {k key : κ}
    {c : β} (h : (alGet l k).isSome) :
    (alGet (alUpdate l key (fun _ => c) c) k).isSome := by
  rw [alGet_assign]
  by_cases hk : k = key
  · rw [if_pos hk]
    rfl
  · rw [if_neg hk]
    exact h

theorem brmAliases_isSome_mono {cn : String} {as : List String}
    {m : List (String × String)} {k : String} (h : (alGet m k).isSome) :
    (alGet (brmAliases cn m as) k).isSome := by
  induction as generalizing m with
  | nil => exact h
  | cons a as ih => exact ih (alGet_assign_isSome_mono h)

theorem brmStep_isSome_mono {m : List (String × String)} {p : String × List String}
    {k : String} (h : (alGet m k).isSome) : (alGet (brmStep m p) k).isSome :=
  alGet_assign_isSome_mono (brmAliases_isSome_mono h)

theorem brmFold_isSome_mono :
    ∀ (t : AliasTable) {m : List (String × String)} {k : String},
      (alGet m k).isSome → (alGet (t.foldl brmStep m) k).isSome := by
  intro t
  induction t with
  | nil => exact fun h => h
  | cons p rest ih => exact fun h => ih (brmStep_isSome_mono h)

theorem brmAliases_hits {cn : String} {as : List String}
    {m : List (String × String)} {x : String} (hx : x ∈ as) :
    (alGet (brmAliases cn m as) (pyLower x)).isSome := by
  induction as generalizing m with
  | nil => cases hx
  | cons a as ih =>
      rcases List.mem_cons.mp hx with h | h
      · subst h
        show (alGet (brmAliases cn
          (alUpdate m (pyLower x) (fun _ => cn) cn) as) (pyLower x)).isSome
        refine brmAliases_isSome_mono ?_
        rw [alGet_assign, if_pos rfl]
        rfl
      · exact ih h

theorem brmStep_hits {m : List (String × String)} {p : String × List String}
    {x : String} (hx : x ∈ p.2 ∨ x = p.1) :
    (alGet (brmStep m p) (pyLower x)).isSome := by
  rcases hx with h | h
  · exact alGet_assign_isSome_mono (brmAliases_hits h)
  · subst h
    unfold brmStep
    rw [alGet_assign, if_pos rfl]
    rfl

theorem build_reverse_mapping_declared :
    ∀ (t : AliasTable) {m : List (String × String)} {x : String},
      Declared t x → (alGet (t.foldl brmStep m) (pyLower x)).isSome := by
  intro t
  induction t with
  | nil =>
      rintro m x ⟨p, hp, _⟩
      cases hp
  | cons q rest ih =>
      rintro m x ⟨p, hp, hx⟩
      rcases List.mem_cons.mp hp with h | h
      · subst h
        exact brmFold_isSome_mono rest (brmStep_hits hx)
      · exact ih ⟨p, h, hx⟩

/-- C6.  Username resolution is total and case-insensitive: for every
username `x` declared in the alias table (as an alias or as a canonical
name, with canonical names nonempty), resolving `x`, `x.upper()` and
`x.lower()` all return the same canonical name; a username with no
mapping is returned unchanged; empty input is returned unchanged.
(`get_canonical_name` is a total function, so it never fails.) -/
theorem get_canonical_name_case_insensitive_total :
    (∀ (t : AliasTable) (x : String), Declared t x → (∀ p ∈ t, p.1 ≠ "") →
      x ≠ "" →
      ∃ c, alGet (build_reverse_mapping t) (pyLower x) = some c ∧ c ≠ "" ∧
        get_canonical_name t x = c ∧
        get_canonical_name t (pyUpper x) = c ∧
        get_canonical_name t (pyLower x) = c) ∧
    (∀ (t : AliasTable) (y : String),
      alGet (build_reverse_mapping t) (pyLower y) = none →
      get_canonical_name t y = y) ∧
    (∀ t : AliasTable, get_canonical_name t "" = "") := by
  refine ⟨?_, ?_, ?_⟩
  · intro t x hd hne hx
    obtain ⟨c, hc⟩ :=
      Option.isSome_iff_exists.mp (build_reverse_mapping_declared t hd)
    have hc : alGet (build_reverse_mapping t) (pyLower x) = some c := hc
    have hcne : c ≠ "" := by
      have hmem := build_reverse_mapping_values hc
      obtain ⟨p, hp, hpc⟩ := List.mem_map.mp hmem
      exact hpc ▸ hne p hp
    refine ⟨c, hc, hcne, ?_, ?_, ?_⟩
    · rw [get_canonical_name, if_neg hx, hc]
      exact if_neg hcne
    · have hux : pyUpper x ≠ "" := fun h => hx (pyUpper_eq_empty h)
      rw [get_canonical_name, if_neg hux, pyLower_pyUpper, hc]
      exact if_neg hcne
    · have hlx : pyLower x ≠ "" := fun h => hx (pyLower_eq_empty h)
      rw [get_canonical_name, if_neg hlx, pyLower_pyLower, hc]
      exact if_neg hcne
  · intro t y h
    by_cases hy : y = ""
    · rw [get_canonical_name, if_pos hy]
    · rw [get_canonical_name, if_neg hy, h]
  · intro t
    rfl

/-- C6 witness: the theorem applied to the concrete alias table
`{"Alice": ["ali"]}` and the declared alias "ali", plus the unmapped
username "zzz". -/
theorem get_canonical_name_case_insensitive_total_witness :
    (∃ c, alGet (build_reverse_mapping [("Alice", ["ali"])]) (pyLower "ali") = some c ∧
        c ≠ "" ∧
        get_canonical_name [("Alice", ["ali"])] "ali" = c ∧
        get_canonical_name [("Alice", ["ali"])] (pyUpper "ali") = c ∧
        get_canonical_name [("Alice", ["ali"])] (pyLower "ali") = c) ∧
    get_canonical_name [("Alice", ["ali"])] "zzz" = "zzz" ∧
    get_canonical_name [("Alice", ["ali"])] "" = "" :=
  ⟨get_canonical_name_case_insensitive_total.1 [("Alice", ["ali"])] "ali"
      ⟨("Alice", ["ali"]), by decide, by decide⟩ (by decide) (by decide),
   get_canonical_name_case_insensitive_total.2.1 [("Alice", ["ali"])] "zzz"
      (by decide),
   get_canonical_name_case_insensitive_total.2.2 [("Alice", ["ali"])]⟩

/-! ### Statistic records and `merge_author_stats`

A statistics dict is modelled by `StatsRecord`: each key the merge code
can touch is an `Option` field (`none` = key absent).  `WeekEntry`
likewise models one entry of a `weeks` list with both the short
(`w`/`c`/`a`/`d`) and the long (`week`/`commits`/...) key variants. -/

structure WeekEntry where
  w : Option Int := none
  week : Option Int := none
  c : Option Int := none
  commits : Option Int := none
  a : Option Int := none
  additions : Option Int := none
  d : Option Int := none
  deletions : Option Int := none
deriving DecidableEq

structure StatsRecord where
  author : Option String := none
  username : Option String := none
  original_authors : Option (List String) := none
  commits : Option Int := none
  additions : Option Int := none
  deletions : Option Int := none
  total_commits : Option Int := none
  total_additions : Option Int := none
  total_deletions : Option Int := none
  lines_added : Option Int := none
  lines_removed : Option Int := none
  net_lines : Option Int := none
  weeks : Option (List WeekEntry) := none
deriving DecidableEq

instance : Inhabited StatsRecord := ⟨{}⟩

/-- The fixed allow-list of summed numeric fields (line 189 of
`author_mapper.py`), as an index type. -/
inductive NumField where
  | commits | additions | deletions | total_commits | total_additions
  | total_deletions | lines_added | lines_removed | net_lines
deriving DecidableEq

def numeric_fields : List NumField :=
  [.commits, .additions, .deletions, .total_commits, .total_additions,
   .total_deletions, .lines_added, .lines_removed, .net_lines]

def getNum (r : StatsRecord) : NumField → Option Int
  | .commits => r.commits
  | .additions => r.additions
  | .deletions => r.deletions
  | .total_commits => r.total_commits
  | .total_additions => r.total_additions
  | .total_deletions => r.total_deletions
  | .lines_added => r.lines_added
  | .lines_removed => r.lines_removed
  | .net_lines => r.net_lines

def setNum (r : StatsRecord) (f : NumField) (v : Option Int) : StatsRecord :=
  match f with
  | .commits => { r with commits := v }
  | .additions => { r with additions := v }
  | .deletions => { r with deletions := v }
  | .total_commits => { r with total_commits := v }
  | .total_additions => { r with total_additions := v }
  | .total_deletions => { r with total_deletions := v }
  | .lines_added => { r with lines_added := v }
  | .lines_removed => { r with lines_removed := v }
  | .net_lines => { r with net_lines := v }

/-- `stats.get('author', stats.get('username', ''))`, with the falsy check
of lines 148-150: `none` means the record is skipped. -/
def preAuthor (r : StatsRecord) : Option String :=
  if r.author.getD (r.username.getD "") = "" then none
  else some (r.author.getD (r.username.getD ""))

/-- `week.get('w', week.get('week', 0))` (line 216). -/
def wKey (e : WeekEntry) : Int := e.w.getD (e.week.getD 0)

/-- `week.get('c', week.get('commits', 0))` and the `a`/`d` variants
(lines 217-219), bundled as a triple. -/
def wTriple (e : WeekEntry) : Int × Int × Int :=
  (e.c.getD (e.commits.getD 0), e.a.getD (e.additions.getD 0),
   e.d.getD (e.deletions.getD 0))

/-- One iteration of the grouping loop of `merge_author_stats`
(lines 147-153): skip the record when both author keys are missing or
falsy, otherwise append it to the `defaultdict(list)` group of its
resolved canonical name. -/
def gbcStep (t : AliasTable) (acc : List (String × List StatsRecord))
    (r : StatsRecord) : List (String × List StatsRecord) :=
  match preAuthor r with
  | none => acc
  | some a => alUpdate acc (get_canonical_name t a) (fun g => g ++ [r]) []

/-- Grouping loop of `merge_author_stats` (lines 145-153). -/
def group_by_canonical (t : AliasTable) (l : List StatsRecord) :
    List (String × List StatsRecord) :=
  l.foldl (gbcStep t) []

/-- The `len(author_stats_list) == 1` branch (lines 159-164). -/
def merge_single (c : String) (r : StatsRecord) : StatsRecord :=
  { r with author := some c, original_authors := some [r.author.getD c] }

/-- `merged[field] = 0` initialisation for fields present in the first
entry (lines 193-196). -/
def zeroNumStep (m : StatsRecord) (f : NumField) : StatsRecord :=
  if (getNum m f).isSome then setNum m f (some 0) else m

def zeroNums (m : StatsRecord) : StatsRecord :=
  numeric_fields.foldl zeroNumStep m

/-- `merged['original_authors'].append(original_author)` guarded by the
falsy check (lines 204-206). -/
def pushOrig (m e : StatsRecord) : StatsRecord :=
  match preAuthor e with
  | none => m
  | some a =>
      { m with original_authors := some ((m.original_authors.getD []) ++ [a]) }

/-- `if field in entry: merged[field] += entry[field]` (lines 209-211);
reading a field absent from `merged` raises `KeyError`. -/
def addNumStep (e : StatsRecord) (m : StatsRecord) (f : NumField) :
    Except String StatsRecord :=
  match getNum e f with
  | none => .ok m
  | some v =>
      match getNum m f with
      | none => .error "KeyError"
      | some mv => .ok (setNum m f (some (mv + v)))

def addNums (m e : StatsRecord) : Except String StatsRecord :=
  numeric_fields.foldlM (addNumStep e) m

/-- One `weekly_stats_merged[week_key][...] += ...` update (lines 216-219):
`defaultdict` access with per-field summation, keyed by the week key. -/
def wStep (acc : List (Int × (Int × Int × Int))) (we : WeekEntry) :
    List (Int × (Int × Int × Int)) :=
  alUpdate acc (wKey we) (fun tr => tr + wTriple we) (0, 0, 0)

/-- `if 'weeks' in entry: for week in entry['weeks']: ...` (lines 214-219). -/
def addWeeks (acc : List (Int × (Int × Int × Int))) (e : StatsRecord) :
    List (Int × (Int × Int × Int)) :=
  match e.weeks with
  | none => acc
  | some ws => ws.foldl wStep acc

/-- One iteration of the `for entry in stats_entries` loop (lines 202-219). -/
def mergeEntryStep (st : StatsRecord × List (Int × (Int × Int × Int)))
    (e : StatsRecord) :
    Except String (StatsRecord × List (Int × (Int × Int × Int))) := do
  let m ← addNums (pushOrig st.1 e) e
  .ok (m, addWeeks st.2 e)

/-- Output shape of the rebuilt week dicts (lines 223-231). -/
def mkWeekEntry (p : Int × (Int × Int × Int)) : WeekEntry :=
  { w := some p.1, c := some p.2.1, a := some p.2.2.1, d := some p.2.2.2 }

def weekKeyLE (p q : Int × (Int × Int × Int)) : Prop := p.1 ≤ q.1

instance : DecidableRel weekKeyLE :=
  fun p q => inferInstanceAs (Decidable (p.1 ≤ q.1))

instance : IsTotal (Int × (Int × Int × Int)) weekKeyLE :=
  ⟨fun a b => Int.le_total a.1 b.1⟩

instance : IsTrans (Int × (Int × Int × Int)) weekKeyLE :=
  ⟨fun _ _ _ h1 h2 => le_trans h1 h2⟩

/-- Finalisation of `_merge_stats_entries` (lines 221-236): rebuild the
`weeks` list sorted by week key when any week was accumulated, then
de-duplicate `original_authors`. -/
def mergeFinalize (st : StatsRecord × List (Int × (Int × Int × Int))) :
    Except String StatsRecord :=
  let m := if st.2 ≠ [] then
      { st.1 with
          weeks := some ((List.insertionSort weekKeyLE st.2).map mkWeekEntry) }
    else st.1
  .ok { m with original_authors := some ((m.original_authors.getD []).dedup) }

/-- `AuthorMapper._merge_stats_entries` (lines 172-236). -/
def merge_stats_entries (entries : List StatsRecord) (c : String) :
    Except String StatsRecord :=
  match entries with
  | [] => .error "IndexError"
  | first :: _ =>
      (entries.foldlM mergeEntryStep
        (zeroNums { first with
            author := some c,
            original_authors := some ([] : List String) },
         ([] : List (Int × (Int × Int × Int))))).bind
        mergeFinalize

/-- Body of the `for canonical_name, author_stats_list in
grouped_stats.items()` loop (lines 158-168). -/
def mergeBranch (p : String × List StatsRecord) : Except String StatsRecord :=
  match p.2 with
  | [r] => .ok (merge_single p.1 r)
  | g => merge_stats_entries g p.1

/-- `AuthorMapper.merge_author_stats` (lines 131-170). -/
def merge_author_stats (t : AliasTable) (stats_list : List StatsRecord) :
    Except String (List StatsRecord) :=
  if stats_list = [] then .ok stats_list
  else (group_by_canonical t stats_list).mapM mergeBranch

/-! ### Derived quantities used to specify the merge -/

/-- Sum of one allow-listed numeric field over a group (absent keys
contribute 0). -/
def numTotal (g : List StatsRecord) (f : NumField) : Int :=
  (g.map (fun e => (getNum e f).getD 0)).sum

/-- The pre-merge author names of a group, in order. -/
def origsOf (g : List StatsRecord) : List String :=
  g.filterMap preAuthor

/-- All week entries carried by the members of a group, in order. -/
def flatWeeks (g : List StatsRecord) : List WeekEntry :=
  (g.map (fun e => e.weeks.getD [])).flatten

/-- Per-week-key sum of the week triples with a given key. -/
def wSumAt (ws : List WeekEntry) (k : Int) : Int × Int × Int :=
  ((ws.filter (fun we => wKey we = k)).map wTriple).sum

/-! ### Basic lemmas about the record operations -/

theorem mem_numeric_fields (f : NumField) : f ∈ numeric_fields := by
  cases f <;> decide

theorem getNum_setNum_self (r : StatsRecord) (f : NumField) (v : Option Int) :
    getNum (setNum r f v) f = v := by
  cases f <;> rfl

theorem getNum_setNum_other (r : StatsRecord) {f g : NumField} (v : Option Int)
    (h : f ≠ g) : getNum (setNum r g v) f = getNum r f := by
  cases f <;> cases g <;> first | exact absurd rfl h | rfl

/-- The merge only rewrites `author`, `original_authors` and `weeks`
through dedicated code paths; numeric updates leave them alone. -/
def SameShell (m m' : StatsRecord) : Prop :=
  m.author = m'.author ∧ m.username = m'.username ∧
    m.original_authors = m'.original_authors ∧ m.weeks = m'.weeks

theorem sameShell_refl (m : StatsRecord) : SameShell m m := ⟨rfl, rfl, rfl, rfl⟩

theorem sameShell_trans {a b c : StatsRecord} (h1 : SameShell a b)
    (h2 : SameShell b c) : SameShell a c :=
  ⟨h1.1.trans h2.1, h1.2.1.trans h2.2.1, h1.2.2.1.trans h2.2.2.1,
   h1.2.2.2.trans h2.2.2.2⟩

theorem setNum_shell (r : StatsRecord) (f : NumField) (v : Option Int) :
    SameShell (setNum r f v) r := by
  cases f <;> exact ⟨rfl, rfl, rfl, rfl⟩

theorem zeroNumStep_shell (m : StatsRecord) (f : NumField) :
    SameShell (zeroNumStep m f) m := by
  unfold zeroNumStep
  split
  · exact setNum_shell m f (some 0)
  · exact sameShell_refl m

theorem zeroNumStep_getNum (m : StatsRecord) (g f : NumField) :
    getNum (zeroNumStep m g) f =
      if f = g ∧ (getNum m g).isSome then some 0 else getNum m f := by
  unfold zeroNumStep
  by_cases hs : (getNum m g).isSome
  · rw [if_pos hs]
    by_cases hf : f = g
    · subst hf
      rw [getNum_setNum_self, if_pos ⟨rfl, hs⟩]
    · rw [getNum_setNum_other _ _ hf, if_neg (fun hh => hf hh.1)]
  · rw [if_neg hs, if_neg (fun hh => hs hh.2)]

theorem zeroFold_getNum :
    ∀ (fs : List NumField) (m : StatsRecord) (f : NumField),
      getNum (fs.foldl zeroNumStep m) f =
        if f ∈ fs ∧ (getNum m f).isSome then some 0 else getNum m f := by
  intro fs
  induction fs with
  | nil => intro m f; simp
  | cons g fs ih =>
      intro m f
      rw [List.foldl_cons, ih, zeroNumStep_getNum]
      by_cases hf : f = g
      · subst hf
        by_cases hs : (getNum m f).isSome <;> simp [hs]
      · simp only [if_neg (fun hh : f = g ∧ _ => hf hh.1), List.mem_cons]
        by_cases hm : f ∈ fs <;> simp [hm, hf]

theorem zeroFold_shell (fs : List NumField) :
    ∀ m : StatsRecord, SameShell (fs.foldl zeroNumStep m) m := by
  induction fs with
  | nil => exact sameShell_refl
  | cons g fs ih =>
      intro m
      exact sameShell_trans (ih (zeroNumStep m g)) (zeroNumStep_shell m g)

theorem pushOrig_getNum (m e : StatsRecord) (f : NumField) :
    getNum (pushOrig m e) f = getNum m f := by
  unfold pushOrig
  cases preAuthor e with
  | none => rfl
  | some a => cases f <;> rfl

theorem pushOrig_author (m e : StatsRecord) :
    (pushOrig m e).author = m.author := by
  unfold pushOrig
  cases preAuthor e <;> rfl

theorem pushOrig_username (m e : StatsRecord) :
    (pushOrig m e).username = m.username := by
  unfold pushOrig
  cases preAuthor e <;> rfl

theorem pushOrig_weeks (m e : StatsRecord) :
    (pushOrig m e).weeks = m.weeks := by
  unfold pushOrig
  cases preAuthor e <;> rfl

theorem pushOrig_origs {m : StatsRecord} {os : List String} (e : StatsRecord)
    (hos : m.original_authors = some os) :
    (pushOrig m e).original_authors = some (os ++ (preAuthor e).toList) := by
  unfold pushOrig
  cases preAuthor e with
  | none => simp [hos]
  | some a => simp [hos]

theorem origsOf_cons (e : StatsRecord) (g : List StatsRecord) :
    origsOf (e :: g) = (preAuthor e).toList ++ origsOf g := by
  unfold origsOf
  rw [List.filterMap_cons]
  cases preAuthor e <;> simp

theorem alUpdate_of_not_mem {l : List (κ × β)} {k : κ} (f : β → β) (dflt : β)
    (h : k ∉ l.map Prod.fst) : alUpdate l k f dflt = l ++ [(k, f dflt)] := by
  induction l with
  | nil => rfl
  | cons p rest ih =>
      obtain ⟨k₀, v⟩ := p
      simp only [List.map_cons, List.mem_cons, not_or] at h
      show (if k₀ = k then _ else _) = _
      rw [if_neg (fun e => h.1 (Eq.symm e)), ih h.2]
      rfl

theorem mem_alUpdate {l : List (κ × β)} {k : κ} {f : β → β} {dflt : β}
    {p : κ × β} (h : p ∈ alUpdate l k f dflt) :
    p ∈ l ∨ (p.1 = k ∧ (p.2 = f dflt ∨ ∃ v, alGet l k = some v ∧ p.2 = f v)) := by
  induction l with
  | nil =>
      right
      rcases List.mem_singleton.mp h with rfl
      exact ⟨rfl, Or.inl rfl⟩
  | cons q rest ih =>
      obtain ⟨k₀, v₀⟩ := q
      by_cases hk : k₀ = k
      · subst hk
        rw [show alUpdate ((k₀, v₀) :: rest) k₀ f dflt = (k₀, f v₀) :: rest
          from by simp [alUpdate]] at h
        rcases List.mem_cons.mp h with rfl | h'
        · exact Or.inr ⟨rfl, Or.inr ⟨v₀, by simp [alGet], rfl⟩⟩
        · exact Or.inl (List.mem_cons_of_mem _ h')
      · rw [show alUpdate ((k₀, v₀) :: rest) k f dflt
            = (k₀, v₀) :: alUpdate rest k f dflt from by simp [alUpdate, hk]] at h
        rcases List.mem_cons.mp h with rfl | h'
        · exact Or.inl (List.mem_cons_self _ _)
        · rcases ih h' with h2 | ⟨h2, h3⟩
          · exact Or.inl (List.mem_cons_of_mem _ h2)
          · refine Or.inr ⟨h2, ?_⟩
            rcases h3 with h3 | ⟨v, hv, hp⟩
            · exact Or.inl h3
            · exact Or.inr ⟨v, by simp [alGet, hk, hv], hp⟩

/-! ### The weekly accumulator fold -/

theorem wSumAt_cons (we : WeekEntry) (ws : List WeekEntry) (k : Int) :
    wSumAt (we :: ws) k =
      if wKey we = k then wTriple we + wSumAt ws k else wSumAt ws k := by
  unfold wSumAt
  rw [List.filter_cons]
  by_cases h : wKey we = k <;> simp [h]

theorem wStep_alGet (acc : List (Int × (Int × Int × Int))) (we : WeekEntry)
    (k : Int) :
    alGet (wStep acc we) k =
      if k = wKey we
      then some (((alGet acc k).getD (0, 0, 0)) + wTriple we)
      else alGet acc k := by
  unfold wStep
  by_cases hk : k = wKey we
  · subst hk
    rw [alGet_update_self, if_pos rfl]
  · rw [alGet_update_other _ _ _ hk, if_neg hk]

theorem wFold_alGet :
    ∀ (ws : List WeekEntry) (acc : List (Int × (Int × Int × Int))) (k : Int),
      alGet (ws.foldl wStep acc) k =
        if (alGet acc k).isSome ∨ k ∈ ws.map wKey
        then some (((alGet acc k).getD (0, 0, 0)) + wSumAt ws k)
        else none := by
  intro ws
  induction ws with
  | nil =>
      intro acc k
      cases h : alGet acc k with
      | none => simp [h]
      | some t => simp [h, wSumAt]
  | cons we ws ih =>
      intro acc k
      rw [List.foldl_cons, ih, wStep_alGet]
      by_cases hk : k = wKey we
      · subst hk
        rw [if_pos rfl]
        simp [wSumAt_cons, add_assoc]
      · rw [if_neg hk, wSumAt_cons, if_neg (fun e => hk (Eq.symm e))]
        have : (k ∈ (we :: ws).map wKey) ↔ (k ∈ ws.map wKey) := by
          simp [hk]
        by_cases hc : (alGet acc k).isSome ∨ k ∈ ws.map wKey
        · rw [if_pos hc, if_pos (by rw [List.map_cons, List.mem_cons]; tauto)]
        · rw [if_neg hc, if_neg (by rw [List.map_cons, List.mem_cons]; tauto)]

theorem wFold_keys_nodup :
    ∀ (ws : List WeekEntry) (acc : List (Int × (Int × Int × Int))),
      (acc.map Prod.fst).Nodup → ((ws.foldl wStep acc).map Prod.fst).Nodup := by
  intro ws
  induction ws with
  | nil => exact fun _ h => h
  | cons we ws ih =>
      intro acc h
      refine ih _ ?_
      show ((alUpdate acc (wKey we) _ _).map Prod.fst).Nodup
      rw [alUpdate_map_fst]
      by_cases hm : wKey we ∈ acc.map Prod.fst
      · rw [if_pos hm]
        exact h
      · rw [if_neg hm]
        simp [List.nodup_append, h, hm]

/-! ### The numeric-field fold of `_merge_stats_entries` -/

theorem addNums_fold :
    ∀ (fs : List NumField), fs.Nodup → ∀ (m e : StatsRecord),
      (∀ f ∈ fs, (getNum e f).isSome → (getNum m f).isSome) →
      ∃ m', fs.foldlM (addNumStep e) m = .ok m' ∧ SameShell m' m ∧
        (∀ f ∈ fs, getNum m' f = (getNum m f).map (· + (getNum e f).getD 0)) ∧
        (∀ f, f ∉ fs → getNum m' f = getNum m f) := by
  intro fs
  induction fs with
  | nil =>
      intro _ m e _
      exact ⟨m, rfl, sameShell_refl m, by simp, fun f _ => rfl⟩
  | cons g fs ih =>
      intro hnd m e hp
      rw [List.nodup_cons] at hnd
      have hstep : ∃ m₁, addNumStep e m g = .ok m₁ ∧
          getNum m₁ g = (getNum m g).map (· + (getNum e g).getD 0) ∧
          (∀ f, f ≠ g → getNum m₁ f = getNum m f) ∧ SameShell m₁ m := by
        cases he : getNum e g with
        | none =>
            refine ⟨m, by simp [addNumStep, he], ?_, fun f _ => rfl, sameShell_refl m⟩
            cases hm : getNum m g <;> simp [hm]
        | some v =>
            have hms : (getNum m g).isSome :=
              hp g (List.mem_cons_self _ _) (by rw [he]; rfl)
            obtain ⟨mv, hmv⟩ := Option.isSome_iff_exists.mp hms
            refine ⟨setNum m g (some (mv + v)), by simp [addNumStep, he, hmv], ?_,
              fun f hf => getNum_setNum_other _ _ hf, setNum_shell m g _⟩
            rw [getNum_setNum_self, hmv]
            simp
      obtain ⟨m₁, hs1, hs2, hs3, hs4⟩ := hstep
      have hp' : ∀ f ∈ fs, (getNum e f).isSome → (getNum m₁ f).isSome := by
        intro f hf hef
        have hfg : f ≠ g := fun ee => hnd.1 (ee ▸ hf)
        rw [hs3 f hfg]
        exact hp f (List.mem_cons_of_mem _ hf) hef
      obtain ⟨m', h1, h2, h3, h4⟩ := ih hnd.2 m₁ e hp'
      refine ⟨m', ?_, sameShell_trans h2 hs4, ?_, ?_⟩
      · rw [List.foldlM_cons, hs1]
        exact h1
      · intro f hf
        rcases List.mem_cons.mp hf with rfl | hf'
        · rw [h4 f hnd.1, hs2]
        · have hfg : f ≠ g := fun ee => hnd.1 (ee ▸ hf')
          rw [h3 f hf', hs3 f hfg]
      · intro f hf
        rw [List.mem_cons, not_or] at hf
        rw [h4 f hf.2, hs3 f hf.1]

/-! ### The entry fold of `_merge_stats_entries` -/

theorem flatWeeks_nil : flatWeeks [] = [] := rfl

theorem flatWeeks_cons (e : StatsRecord) (g : List StatsRecord) :
    flatWeeks (e :: g) = e.weeks.getD [] ++ flatWeeks g := by
  unfold flatWeeks
  rw [List.map_cons, List.flatten_cons]

theorem addWeeks_eq (acc : List (Int × (Int × Int × Int))) (e : StatsRecord) :
    addWeeks acc e = (e.weeks.getD []).foldl wStep acc := by
  unfold addWeeks
  cases e.weeks <;> rfl

theorem numTotal_nil (f : NumField) : numTotal [] f = 0 := rfl

theorem numTotal_cons (e : StatsRecord) (g : List StatsRecord) (f : NumField) :
    numTotal (e :: g) f = (getNum e f).getD 0 + numTotal g f := by
  unfold numTotal
  rw [List.map_cons, List.sum_cons]

theorem entryFold_ok :
    ∀ (g : List StatsRecord) (m0 : StatsRecord)
      (w0 : List (Int × (Int × Int × Int))) (os : List String),
      m0.original_authors = some os →
      (∀ e ∈ g, ∀ f ∈ numeric_fields, (getNum e f).isSome → (getNum m0 f).isSome) →
      ∃ m w, g.foldlM mergeEntryStep (m0, w0) = .ok (m, w) ∧
        m.author = m0.author ∧ m.username = m0.username ∧ m.weeks = m0.weeks ∧
        m.original_authors = some (os ++ origsOf g) ∧
        (∀ f ∈ numeric_fields, getNum m f = (getNum m0 f).map (· + numTotal g f)) ∧
        w = (flatWeeks g).foldl wStep w0 := by
  intro g
  induction g with
  | nil =>
      intro m0 w0 os hos _
      refine ⟨m0, w0, rfl, rfl, rfl, rfl, by simp [origsOf, hos], ?_, rfl⟩
      intro f _
      cases getNum m0 f <;> simp [numTotal_nil]
  | cons e g ih =>
      intro m0 w0 os hos hp
      have hp1 : ∀ f ∈ numeric_fields, (getNum e f).isSome →
          (getNum (pushOrig m0 e) f).isSome := by
        intro f hf hef
        rw [pushOrig_getNum]
        exact hp e (List.mem_cons_self _ _) f hf hef
      obtain ⟨m₁, ha1, ha2, ha3, ha4⟩ :=
        addNums_fold numeric_fields (by decide) (pushOrig m0 e) e hp1
      have hm₁os : m₁.original_authors = some (os ++ (preAuthor e).toList) := by
        rw [ha2.2.2.1, pushOrig_origs e hos]
      have hp2 : ∀ e' ∈ g, ∀ f ∈ numeric_fields,
          (getNum e' f).isSome → (getNum m₁ f).isSome := by
        intro e' he' f hf hef
        rw [ha3 f hf, pushOrig_getNum]
        have hsome := hp e' (List.mem_cons_of_mem _ he') f hf hef
        cases hh : getNum m0 f with
        | none =>
            rw [hh] at hsome
            simp at hsome
        | some val => rfl
      obtain ⟨m, w, h1, h2, h3, h4, h5, h6, h7⟩ :=
        ih m₁ (addWeeks w0 e) (os ++ (preAuthor e).toList) hm₁os hp2
      refine ⟨m, w, ?_, ?_, ?_, ?_, ?_, ?_, ?_⟩
      · rw [List.foldlM_cons]
        show (mergeEntryStep (m0, w0) e).bind _ = _
        have hstep : mergeEntryStep (m0, w0) e = .ok (m₁, addWeeks w0 e) := by
          unfold mergeEntryStep
          show (addNums (pushOrig m0 e) e).bind _ = _
          rw [show addNums (pushOrig m0 e) e = .ok m₁ from ha1]
          rfl
        rw [hstep]
        exact h1
      · rw [h2, ha2.1, pushOrig_author]
      · rw [h3, ha2.2.1, pushOrig_username]
      · rw [h4, ha2.2.2.2, pushOrig_weeks]
      · rw [h5, origsOf_cons, List.append_assoc]
      · intro f hf
        rw [h6 f hf, ha3 f hf, pushOrig_getNum, numTotal_cons]
        cases hh : getNum m0 f <;> simp [add_assoc]
      · rw [h7, addWeeks_eq, flatWeeks_cons, List.foldl_append]

theorem triple_zero_add (t : Int × Int × Int) :
    ((0, 0, 0) : Int × Int × Int) + t = t := by
  obtain ⟨a, b, c⟩ := t
  show ((0 : Int), (0 : Int), (0 : Int)) + (a, b, c) = (a, b, c)
  rw [Prod.mk_add_mk, Prod.mk_add_mk, zero_add, zero_add, zero_add]

/-- Presence condition under which the numeric merge of a group cannot
raise `KeyError`: every allow-listed field present in some member is
present in the first member. -/
def PresenceOK (g : List StatsRecord) : Prop :=
  ∀ e ∈ g, ∀ f ∈ numeric_fields, (getNum e f).isSome → (getNum g.headI f).isSome

instance (g : List StatsRecord) : Decidable (PresenceOK g) := by
  unfold PresenceOK
  infer_instance

theorem merge_stats_entries_spec (c : String) (first : StatsRecord)
    (rest : List StatsRecord) (Hp : PresenceOK (first :: rest)) :
    ∃ r, merge_stats_entries (first :: rest) c = .ok r ∧
      r.author = some c ∧ r.username = first.username ∧
      (∀ f ∈ numeric_fields,
        getNum r f = if (getNum first f).isSome
          then some (numTotal (first :: rest) f) else none) ∧
      (∀ x, x ∈ r.original_authors.getD [] ↔ x ∈ origsOf (first :: rest)) ∧
      (r.original_authors.getD []).Nodup ∧
      (flatWeeks (first :: rest) = [] → r.weeks = first.weeks) ∧
      (flatWeeks (first :: rest) ≠ [] →
        ∃ was : List (Int × (Int × Int × Int)),
          r.weeks = some (was.map mkWeekEntry) ∧
          (was.map Prod.fst).Sorted (· ≤ ·) ∧
          (∀ k v, (k, v) ∈ was ↔
            (k ∈ (flatWeeks (first :: rest)).map wKey ∧
              v = wSumAt (flatWeeks (first :: rest)) k))) := by
  set g : List StatsRecord := first :: rest with hg
  set first' : StatsRecord :=
    { first with author := some c, original_authors := some ([] : List String) }
    with hf'
  have hf'get : ∀ f : NumField, getNum first' f = getNum first f := by
    rw [hf']
    intro f
    cases f <;> rfl
  set m0 := zeroNums first' with hm0
  have hm0get : ∀ f : NumField, getNum m0 f =
      if (getNum first f).isSome then some 0 else getNum first f := by
    intro f
    rw [hm0, zeroNums, zeroFold_getNum, hf'get]
    by_cases hs : (getNum first f).isSome
    · rw [if_pos ⟨mem_numeric_fields f, hs⟩, if_pos hs]
    · rw [if_neg (fun hh => hs hh.2), if_neg hs]
  have hm0shell : SameShell m0 first' := by
    rw [hm0, zeroNums]
    exact zeroFold_shell numeric_fields first'
  have hm0os : m0.original_authors = some ([] : List String) := by
    rw [hm0shell.2.2.1, hf']
  have hp0 : ∀ e ∈ g, ∀ f ∈ numeric_fields,
      (getNum e f).isSome → (getNum m0 f).isSome := by
    intro e he f hf hef
    rw [hm0get f]
    have hh : (getNum first f).isSome := Hp e he f hf hef
    rw [if_pos hh]
    rfl
  obtain ⟨m, w, h1, h2, h3, h4, h5, h6, h7⟩ := entryFold_ok g m0 [] [] hm0os hp0
  have hauthor : m.author = some c := by
    rw [h2, hm0shell.1, hf']
  have husername : m.username = first.username := by
    rw [h3, hm0shell.2.1, hf']
  have hmweeks : m.weeks = first.weeks := by
    rw [h4, hm0shell.2.2.2, hf']
  have hnums : ∀ f ∈ numeric_fields, getNum m f =
      if (getNum first f).isSome then some (numTotal g f) else none := by
    intro f hf
    rw [h6 f hf, hm0get f]
    by_cases hs : (getNum first f).isSome
    · rw [if_pos hs, if_pos hs]
      simp
    · rw [if_neg hs, if_neg hs]
      cases hh : getNum first f with
      | none => rfl
      | some val =>
          rw [hh] at hs
          exact absurd rfl hs
  have horigs : m.original_authors = some (origsOf g) := by
    rw [h5]
    rfl
  have hrun : merge_stats_entries g c =
      (List.foldlM mergeEntryStep (m0, ([] : List (Int × (Int × Int × Int)))) g).bind
        mergeFinalize := by
    rw [hm0, hf', hg]
    rfl
  have hwnodup : (((flatWeeks g).foldl wStep
      ([] : List (Int × (Int × Int × Int)))).map Prod.fst).Nodup :=
    wFold_keys_nodup (flatWeeks g) [] (by simp)
  have hwget : ∀ k, alGet ((flatWeeks g).foldl wStep
      ([] : List (Int × (Int × Int × Int)))) k =
        if k ∈ (flatWeeks g).map wKey then some (wSumAt (flatWeeks g) k)
        else none := by
    intro k
    rw [wFold_alGet]
    simp only [alGet, Option.isSome_none, Bool.false_eq_true, false_or,
      Option.getD_none]
    by_cases hm : k ∈ (flatWeeks g).map wKey
    · rw [if_pos hm, if_pos hm, triple_zero_add]
    · rw [if_neg hm, if_neg hm]
  by_cases hfl : flatWeeks g = []
  · have hwl0 : (flatWeeks g).foldl wStep
        ([] : List (Int × (Int × Int × Int))) = [] := by
      rw [hfl]
      rfl
    refine ⟨{ m with
        original_authors := some ((m.original_authors.getD []).dedup) },
      ?_, hauthor, husername,
      ?_, ?_, ?_, ?_, ?_⟩
    · rw [hrun, h1]
      show mergeFinalize (m, w) = _
      rw [h7, hwl0]
      unfold mergeFinalize
      simp
    · intro f hf
      have hrf : getNum ({ m with
          original_authors := some ((m.original_authors.getD []).dedup) }
            : StatsRecord) f
            = getNum m f := by
        cases f <;> rfl
      rw [hrf]
      exact hnums f hf
    · intro x
      show x ∈ ((m.original_authors.getD []).dedup : List String) ↔ _
      rw [List.mem_dedup, horigs]
      rfl
    · exact List.nodup_dedup _
    · intro _
      exact hmweeks
    · intro hne
      exact absurd hfl hne
  · have hwlne : (flatWeeks g).foldl wStep
        ([] : List (Int × (Int × Int × Int))) ≠ [] := by
      obtain ⟨we, hwe⟩ := List.exists_mem_of_ne_nil _ hfl
      intro hwl
      have hk := hwget (wKey we)
      rw [hwl, if_pos (List.mem_map_of_mem wKey hwe)] at hk
      cases hk
    set wl := (flatWeeks g).foldl wStep ([] : List (Int × (Int × Int × Int)))
      with hwl
    refine ⟨{ { m with
          weeks := some ((List.insertionSort weekKeyLE wl).map mkWeekEntry) } with
        original_authors := some ((m.original_authors.getD []).dedup) },
      ?_, hauthor, husername, ?_, ?_, ?_, ?_, ?_⟩
    · rw [hrun, h1]
      show mergeFinalize (m, w) = _
      rw [h7]
      unfold mergeFinalize
      rw [if_pos hwlne]
    · intro f hf
      have hrf : getNum ({ { m with
            weeks := some ((List.insertionSort weekKeyLE wl).map mkWeekEntry) } with
          original_authors := some ((m.original_authors.getD []).dedup) }
            : StatsRecord) f = getNum m f := by
        cases f <;> rfl
      rw [hrf]
      exact hnums f hf
    · intro x
      show x ∈ ((m.original_authors.getD []).dedup : List String) ↔ _
      rw [List.mem_dedup, horigs]
      rfl
    · exact List.nodup_dedup _
    · intro h0
      exact absurd h0 hfl
    · intro _
      refine ⟨List.insertionSort weekKeyLE wl, rfl, ?_, ?_⟩
      · have hsorted : List.Sorted weekKeyLE (List.insertionSort weekKeyLE wl) :=
          List.sorted_insertionSort weekKeyLE wl
        exact List.Pairwise.map Prod.fst (fun a b hab => hab) hsorted
      · intro k v
        have hperm : (List.insertionSort weekKeyLE wl).Perm wl :=
          List.perm_insertionSort weekKeyLE wl
        have hnodup2 : ((List.insertionSort weekKeyLE wl).map Prod.fst).Nodup :=
          ((hperm.map Prod.fst).nodup_iff).mpr hwnodup
        rw [alGet_of_nodup hnodup2, alGet_eq_of_perm hperm hnodup2 k, hwl, hwget k]
        by_cases hm : k ∈ (flatWeeks g).map wKey
        · rw [if_pos hm]
          constructor
          · intro hh
            exact ⟨hm, (Option.some.inj hh).symm⟩
          · rintro ⟨_, rfl⟩
            rfl
        · rw [if_neg hm]
          constructor
          · intro hh
            cases hh
          · rintro ⟨hh, _⟩
            exact absurd hh hm

/-! ### Properties of the grouping loop -/

theorem preAuthor_of_author {r : StatsRecord} {a : String}
    (ha : r.author = some a) (hane : a ≠ "") : preAuthor r = some a := by
  unfold preAuthor
  rw [show r.author.getD (r.username.getD "") = a from by rw [ha]; rfl,
    if_neg hane]

theorem group_by_canonical_mem (t : AliasTable) (l : List StatsRecord) :
    ∀ p ∈ group_by_canonical t l, p.2 ≠ [] ∧
      ∀ r ∈ p.2, ∃ a, preAuthor r = some a ∧ get_canonical_name t a = p.1 := by
  suffices h : ∀ (l : List StatsRecord) (acc : List (String × List StatsRecord)),
      (∀ p ∈ acc, p.2 ≠ [] ∧
        ∀ r ∈ p.2, ∃ a, preAuthor r = some a ∧ get_canonical_name t a = p.1) →
      ∀ p ∈ l.foldl (gbcStep t) acc, p.2 ≠ [] ∧
        ∀ r ∈ p.2, ∃ a, preAuthor r = some a ∧ get_canonical_name t a = p.1 by
    exact h l [] (by intro p hp; cases hp)
  intro l
  induction l with
  | nil => exact fun acc hacc => hacc
  | cons r l ih =>
      intro acc hacc
      rw [List.foldl_cons]
      refine ih (gbcStep t acc r) ?_
      intro p hp
      unfold gbcStep at hp
      cases hpa : preAuthor r with
      | none =>
          rw [hpa] at hp
          exact hacc p hp
      | some a =>
          rw [hpa] at hp
          rcases mem_alUpdate hp with hmem | ⟨hk, hv⟩
          · exact hacc p hmem
          · obtain ⟨pk, pv⟩ := p
            simp only at hk hv
            subst hk
            constructor
            · rcases hv with rfl | ⟨v, _, rfl⟩ <;> simp
            · intro r' hr'
              rcases hv with rfl | ⟨v, hvget, rfl⟩
              · rcases List.mem_singleton.mp (by simpa using hr') with rfl
                exact ⟨a, hpa, rfl⟩
              · rcases List.mem_append.mp hr' with hmem2 | hmem2
                · exact (hacc (get_canonical_name t a, v) (alGet_mem hvget)).2 r' hmem2
                · rcases List.mem_singleton.mp hmem2 with rfl
                  exact ⟨a, hpa, rfl⟩

theorem group_by_canonical_filter (t : AliasTable) (l : List StatsRecord) :
    group_by_canonical t l =
      group_by_canonical t (l.filter (fun r => (preAuthor r).isSome)) := by
  suffices h : ∀ (l : List StatsRecord) (acc : List (String × List StatsRecord)),
      l.foldl (gbcStep t) acc
        = (l.filter (fun r => (preAuthor r).isSome)).foldl (gbcStep t) acc by
    exact h l []
  intro l
  induction l with
  | nil => exact fun acc => rfl
  | cons r l ih =>
      intro acc
      rw [List.foldl_cons, List.filter_cons]
      cases hpa : preAuthor r with
      | none =>
          rw [show gbcStep t acc r = acc from by unfold gbcStep; rw [hpa]]
          simp only [Option.isSome_none, Bool.false_eq_true, if_false]
          exact ih acc
      | some a =>
          simp only [Option.isSome_some, if_true]
          rw [List.foldl_cons]
          exact ih (gbcStep t acc r)

theorem group_by_canonical_singletons (t : AliasTable) :
    ∀ (l : List StatsRecord) (acc : List (String × List StatsRecord)),
      (∀ r ∈ l, ∃ a, r.author = some a ∧ a ≠ "" ∧ get_canonical_name t a = a) →
      (∀ r ∈ l, r.author.getD "" ∉ acc.map Prod.fst) →
      ((l.map (fun r => r.author.getD "")).Nodup) →
      l.foldl (gbcStep t) acc
        = acc ++ l.map (fun r => (r.author.getD "", [r])) := by
  intro l
  induction l with
  | nil =>
      intro acc _ _ _
      simp
  | cons r l ih =>
      intro acc hcan hkeys hnd
      obtain ⟨a, ha, hane, hfix⟩ := hcan r (List.mem_cons_self _ _)
      have hgetd : r.author.getD "" = a := by rw [ha]; rfl
      rw [List.map_cons, List.nodup_cons, hgetd] at hnd
      have hstep : gbcStep t acc r = acc ++ [(a, [r])] := by
        unfold gbcStep
        rw [preAuthor_of_author ha hane]
        show alUpdate acc (get_canonical_name t a) (fun g => g ++ [r]) [] = _
        rw [hfix, alUpdate_of_not_mem _ _ (hgetd ▸ hkeys r (List.mem_cons_self _ _))]
        rfl
      rw [List.foldl_cons, hstep,
        ih (acc ++ [(a, [r])])
          (fun r' hr' => hcan r' (List.mem_cons_of_mem _ hr'))
          ?_ hnd.2]
      · rw [List.map_cons, hgetd, List.append_assoc]
        rfl
      · intro r' hr'
        rw [List.map_append]
        intro hmem
        rcases List.mem_append.mp hmem with hmem2 | hmem2
        · exact hkeys r' (List.mem_cons_of_mem _ hr') hmem2
        · rcases List.mem_singleton.mp (by simpa using hmem2) with heq
          exact hnd.1 (heq ▸ List.mem_map_of_mem (fun r => r.author.getD "") hr')

theorem mapM_ok {α γ : Type} (Q : α → γ → Prop) (f : α → Except String γ) :
    ∀ l : List α, (∀ a ∈ l, ∃ b, f a = .ok b ∧ Q a b) →
      ∃ out, l.mapM f = .ok out ∧ List.Forall₂ Q l out := by
  intro l
  induction l with
  | nil => exact fun _ => ⟨[], rfl, List.Forall₂.nil⟩
  | cons a l ih =>
      intro h
      obtain ⟨b, hb, hq⟩ := h a (List.mem_cons_self _ _)
      obtain ⟨out, hout, hfa⟩ := ih (fun x hx => h x (List.mem_cons_of_mem _ hx))
      refine ⟨b :: out, ?_, List.Forall₂.cons hq hfa⟩
      rw [List.mapM_cons, hb, hout]
      rfl

theorem mapM_branch_singletons :
    ∀ l : List StatsRecord,
      (l.map (fun r => (r.author.getD "", [r]))).mapM mergeBranch
        = .ok (l.map (fun r => merge_single (r.author.getD "") r)) := by
  intro l
  induction l with
  | nil => rfl
  | cons r l ih =>
      rw [List.map_cons, List.mapM_cons,
        show mergeBranch (r.author.getD "", [r])
          = .ok (merge_single (r.author.getD "") r) from rfl, ih]
      rfl

/-! ### Claim theorems about `merge_author_stats` -/

/-- C7.  `merge_author_stats` is idempotent on already-canonical,
already-singleton input: when every record carries an author equal to its
own (nonempty) canonical name and no two records resolve to the same
canonical author, the output equals the input except that each record
gains `original_authors = [author]`. -/
theorem merge_author_stats_idempotent_on_canonical (t : AliasTable)
    (l : List StatsRecord)
    (hcan : ∀ r ∈ l, ∃ a, r.author = some a ∧ a ≠ "" ∧
      get_canonical_name t a = a)
    (hnd : (l.map (fun r => r.author.getD "")).Nodup) :
    merge_author_stats t l =
      .ok (l.map (fun r =>
        { r with original_authors := some [r.author.getD ""] })) := by
  by_cases hl : l = []
  · subst hl
    rfl
  · unfold merge_author_stats
    rw [if_neg hl]
    unfold group_by_canonical
    rw [group_by_canonical_singletons t l [] hcan (by intro r _; simp) hnd,
      List.nil_append, mapM_branch_singletons]
    refine congrArg Except.ok (List.map_congr_left ?_)
    intro r hr
    obtain ⟨a, ha, hane, _⟩ := hcan r hr
    unfold merge_single
    rw [show r.author.getD "" = a from by rw [ha]; rfl]
    rw [show r.author.getD a = a from by rw [ha]; rfl]
    rw [← ha]

/-- C7 witness: two already-canonical singleton records pass through the
merge unchanged apart from the added `original_authors`. -/
theorem merge_author_stats_idempotent_on_canonical_witness :
    merge_author_stats []
        [({ author := some "alice", commits := some 3 } : StatsRecord),
         ({ author := some "bob", commits := some 4 } : StatsRecord)]
      = .ok
        [({ author := some "alice", commits := some 3,
            original_authors := some ["alice"] } : StatsRecord),
         ({ author := some "bob", commits := some 4,
            original_authors := some ["bob"] } : StatsRecord)] := by
  have h := merge_author_stats_idempotent_on_canonical []
    [({ author := some "alice", commits := some 3 } : StatsRecord),
     ({ author := some "bob", commits := some 4 } : StatsRecord)]
    (by
      intro r hr
      rcases List.mem_cons.mp hr with rfl | hr2
      · exact ⟨"alice", rfl, by decide, by decide⟩
      · rcases List.mem_singleton.mp hr2 with rfl
        exact ⟨"bob", rfl, by decide, by decide⟩)
    (by decide)
  exact h

/-- C10.  `merge_author_stats` silently skips records without a usable
author key: the grouping (and hence the whole merge, including whether it
raises) only depends on the records whose `author`/`username` lookup is
non-falsy; every record placed in a group has a usable key; and a record
whose `author` and `username` are both absent or empty has no usable key. -/
theorem merge_author_stats_skips_empty_author :
    (∀ (t : AliasTable) (l : List StatsRecord),
      merge_author_stats t l =
        merge_author_stats t (l.filter (fun r => (preAuthor r).isSome))) ∧
    (∀ (t : AliasTable) (l : List StatsRecord)
        (p : String × List StatsRecord),
      p ∈ group_by_canonical t l → ∀ r ∈ p.2, (preAuthor r).isSome) ∧
    (∀ r : StatsRecord, (r.author = none ∨ r.author = some "") →
      (r.username = none ∨ r.username = some "") → preAuthor r = none) := by
  refine ⟨?_, ?_, ?_⟩
  · intro t l
    by_cases hl : l = []
    · subst hl
      rfl
    · by_cases hf : l.filter (fun r => (preAuthor r).isSome) = []
      · unfold merge_author_stats
        rw [if_neg hl, if_pos hf, group_by_canonical_filter t l, hf]
        rfl
      · unfold merge_author_stats
        rw [if_neg hl, if_neg hf, group_by_canonical_filter t l]
  · intro t l p hp r hr
    obtain ⟨a, ha, _⟩ := (group_by_canonical_mem t l p hp).2 r hr
    rw [ha]
    rfl
  · intro r h1 h2
    unfold preAuthor
    rcases h1 with h1 | h1 <;> rcases h2 with h2 | h2 <;> simp [h1, h2]

/-- C10 witness: in the list `[{author: "x"}, {}]` the keyless record
reaches no group while the keyed one does. -/
theorem merge_author_stats_skips_empty_author_witness :
    (preAuthor ({ author := some "x" } : StatsRecord)).isSome ∧
    preAuthor ({} : StatsRecord) = none :=
  ⟨merge_author_stats_skips_empty_author.2.1 []
      [({ author := some "x" } : StatsRecord), ({} : StatsRecord)]
      ("x", [({ author := some "x" } : StatsRecord)]) (by decide)
      ({ author := some "x" } : StatsRecord) (by decide),
   merge_author_stats_skips_empty_author.2.2 {} (Or.inl rfl) (Or.inl rfl)⟩

/-- The merge rule for one multi-record group, as stated by the spec:
canonical author name, allow-listed fields summed (for fields the first
record carries), `original_authors` the de-duplicated set of pre-merge
authors, and `weeks` merged by week key with per-field summation, sorted
ascending. -/
def MergedGroupSpec (p : String × List StatsRecord) (r : StatsRecord) : Prop :=
  1 < p.2.length →
    r.author = some p.1 ∧
    (∀ f ∈ numeric_fields, (getNum p.2.headI f).isSome →
      getNum r f = some (numTotal p.2 f)) ∧
    (∀ x, x ∈ r.original_authors.getD [] ↔ x ∈ origsOf p.2) ∧
    (r.original_authors.getD []).Nodup ∧
    (flatWeeks p.2 ≠ [] →
      ∃ was : List (Int × (Int × Int × Int)),
        r.weeks = some (was.map mkWeekEntry) ∧
        (was.map Prod.fst).Sorted (· ≤ ·) ∧
        (∀ k v, (k, v) ∈ was ↔
          (k ∈ (flatWeeks p.2).map wKey ∧ v = wSumAt (flatWeeks p.2) k)))

def mergeScenarioTable : AliasTable := [("A", ["a1", "a2"])]

def mergeScenarioRec1 : StatsRecord :=
  { author := some "a1", commits := some 10, additions := some 100,
    deletions := some 50 }

def mergeScenarioRec2 : StatsRecord :=
  { author := some "a2", commits := some 5, additions := some 50,
    deletions := some 25 }

/-- C1 (amended).  Provided every allow-listed field present in a group
member is present in the group's first member (`PresenceOK`), the merge
succeeds, the output corresponds group-by-group to the canonical
grouping, each multi-record group obeys the merge rule
(`MergedGroupSpec`), each grouped record resolves to its group's
canonical name, and the concrete two-record scenario merges to
`{author: "A", commits: 15, additions: 150, deletions: 75}` with
`original_authors` equal as a set to `{"a1", "a2"}`. -/
theorem merge_author_stats_merge_rule :
    (∀ (t : AliasTable) (l : List StatsRecord),
      (∀ p ∈ group_by_canonical t l, PresenceOK p.2) →
      ∃ out, merge_author_stats t l = .ok out ∧
        List.Forall₂ MergedGroupSpec (group_by_canonical t l) out) ∧
    (∀ (t : AliasTable) (l : List StatsRecord)
        (p : String × List StatsRecord),
      p ∈ group_by_canonical t l →
      ∀ r ∈ p.2, ∃ a, preAuthor r = some a ∧ get_canonical_name t a = p.1) ∧
    (∃ rOut, merge_author_stats mergeScenarioTable
        [mergeScenarioRec1, mergeScenarioRec2] = .ok [rOut] ∧
      rOut.author = some "A" ∧ rOut.commits = some 15 ∧
      rOut.additions = some 150 ∧ rOut.deletions = some 75 ∧
      (∀ x, x ∈ rOut.original_authors.getD [] ↔ (x = "a1" ∨ x = "a2")) ∧
      (rOut.original_authors.getD []).Nodup) := by
  refine ⟨?_, ?_, ?_⟩
  · intro t l hp
    by_cases hl : l = []
    · refine ⟨[], ?_, ?_⟩
      · subst hl
        rfl
      · subst hl
        exact List.Forall₂.nil
    · unfold merge_author_stats
      rw [if_neg hl]
      refine mapM_ok MergedGroupSpec mergeBranch (group_by_canonical t l) ?_
      intro p hpg
      obtain ⟨hne, _⟩ := group_by_canonical_mem t l p hpg
      obtain ⟨pk, pv⟩ := p
      cases hp2 : pv with
      | nil => exact absurd (by simpa using hp2) hne
      | cons first rest =>
          cases rest with
          | nil =>
              refine ⟨merge_single pk first, rfl, ?_⟩
              intro hlen
              simp at hlen
          | cons second rest2 =>
              have Hp : PresenceOK (first :: second :: rest2) := by
                have h2 := hp (pk, pv) hpg
                rw [hp2] at h2
                exact h2
              obtain ⟨r, hr, ha, hu, hn, ho, hod, hw0, hw1⟩ :=
                merge_stats_entries_spec pk first (second :: rest2) Hp
              refine ⟨r, hr, ?_⟩
              intro _
              refine ⟨ha, ?_, ho, hod, hw1⟩
              intro f hf hs
              have hs2 : (getNum first f).isSome := hs
              rw [hn f hf, if_pos hs2]
  · intro t l p hp r hr
    exact (group_by_canonical_mem t l p hp).2 r hr
  · refine ⟨{ author := some "A",
              original_authors := some ["a1", "a2"],
              commits := some 15,
              additions := some 150,
              deletions := some 75 },
      rfl, rfl, rfl, rfl, rfl, ?_, by decide⟩
    intro x
    show x ∈ (["a1", "a2"] : List String) ↔ _
    simp

/-- C1 witness: the amended merge rule applied to the concrete scenario
table and records, with `PresenceOK` discharged by computation. -/
theorem merge_author_stats_merge_rule_witness :
    ∃ out, merge_author_stats mergeScenarioTable
        [mergeScenarioRec1, mergeScenarioRec2] = .ok out ∧
      List.Forall₂ MergedGroupSpec
        (group_by_canonical mergeScenarioTable
          [mergeScenarioRec1, mergeScenarioRec2]) out :=
  merge_author_stats_merge_rule.1 mergeScenarioTable
    [mergeScenarioRec1, mergeScenarioRec2] (by decide)

def mergeKeyErrorRec1 : StatsRecord := { author := some "a1" }

def mergeKeyErrorRec2 : StatsRecord := { author := some "a2", commits := some 5 }

/-- C1 counterexample to the unamended claim: when a later record of a
group carries an allow-listed field (`commits`) that the group's first
record lacks, `merge_author_stats` raises `KeyError` instead of
producing a merged record with the summed field. -/
theorem merge_author_stats_keyerror_counterexample :
    merge_author_stats mergeScenarioTable
        [mergeKeyErrorRec1, mergeKeyErrorRec2] = .error "KeyError" ∧
    ¬ ∃ out, merge_author_stats mergeScenarioTable
        [mergeKeyErrorRec1, mergeKeyErrorRec2] = .ok out := by
  constructor
  · rfl
  · rintro ⟨out, hout⟩
    rw [show merge_author_stats mergeScenarioTable
        [mergeKeyErrorRec1, mergeKeyErrorRec2] = .error "KeyError" from rfl]
      at hout
    cases hout

/-! ### Day-of-week aggregation (`weekly_performance_analyzer.py`)

`WeekRec` models one raw weekly record (`w`/`c`/`a`/`d` plus the
`author` added by `fetch_weekly_commits`); every key is read through
`.get(key, default)`, hence `Option` fields. -/

structure WeekRec where
  w : Option Int := none
  c : Option Int := none
  a : Option Int := none
  d : Option Int := none
  author : Option String := none
deriving DecidableEq

def day_names : List String :=
  ["Monday", "Tuesday", "Wednesday", "Thursday", "Friday", "Saturday",
   "Sunday"]

/-- `datetime.fromtimestamp(timestamp, tz=timezone.utc).weekday()`:
day 0 of the Unix epoch was a Thursday (weekday 3, Monday = 0). -/
def weekdayOf (ts : Int) : Nat := (((ts.fdiv 86400) + 3).emod 7).toNat

/-- `WeeklyPerformanceAnalyzer.get_day_name` (lines 108-124). -/
def get_day_name (timestamp : Int) : String :=
  if timestamp = 0 then "Unknown"
  else day_names.getD (weekdayOf timestamp) ""

def init_day_stats : List (String × (Int × Int × Int)) :=
  [("Monday", (0, 0, 0)), ("Tuesday", (0, 0, 0)), ("Wednesday", (0, 0, 0)),
   ("Thursday", (0, 0, 0)), ("Friday", (0, 0, 0)), ("Saturday", (0, 0, 0)),
   ("Sunday", (0, 0, 0))]

/-- In-place `d[k] = f(d[k])` on a plain dict: `none` when the key is
absent (a `KeyError` in Python). -/
def alAdjust (l : List (κ × β)) (k : κ) (f : β → β) : Option (List (κ × β)) :=
  match l with
  | [] => none
  | (k', v) :: rest =>
      if k' = k then some ((k', f v) :: rest)
      else (alAdjust rest k f).map (fun r => (k', v) :: r)

/-- `day_stats[day_name][...] += ...` (lines 102-104): the three `+=`
statements on the fixed inner dict, as one triple addition; a missing
day key raises `KeyError`. -/
def updDay (ds : List (String × (Int × Int × Int))) (day : String)
    (tr : Int × Int × Int) :
    Except String (List (String × (Int × Int × Int))) :=
  match alAdjust ds day (fun t => t + tr) with
  | some ds => .ok ds
  | none => .error ("KeyError: " ++ day)

/-- One iteration of the loop in `aggregate_by_day_of_week`
(lines 94-104), including the always-true truthiness check
`if day_name:`. -/
def aggStep (ds : List (String × (Int × Int × Int))) (wd : WeekRec) :
    Except String (List (String × (Int × Int × Int))) :=
  let day_name := get_day_name (wd.w.getD 0)
  if day_name ≠ "" then
    updDay ds day_name (wd.c.getD 0, wd.a.getD 0, wd.d.getD 0)
  else .ok ds

/-- `WeeklyPerformanceAnalyzer.aggregate_by_day_of_week` (lines 73-106). -/
def aggregate_by_day_of_week (stats : List WeekRec) :
    Except String (List (String × (Int × Int × Int))) :=
  stats.foldlM aggStep init_day_stats

/-- One iteration of the per-author grouping loop of `analyze_all_repos`
(lines 157-165), with its `day_name != "Unknown"` guard, over the
flattened record stream of all repositories. -/
def combineStep (acc : List (String × List (String × (Int × Int × Int))))
    (week : WeekRec) : List (String × List (String × (Int × Int × Int))) :=
  let author := week.author.getD "unknown"
  let day_name := get_day_name (week.w.getD 0)
  if day_name ≠ "Unknown" then
    alUpdate acc author
      (fun ds => alUpdate ds day_name
        (fun tr => tr + (week.c.getD 0, week.a.getD 0, week.d.getD 0))
        (0, 0, 0))
      []
  else acc

/-- The pure aggregation core of `analyze_all_repos` (lines 151-167). -/
def analyze_records (stats : List WeekRec) :
    List (String × List (String × (Int × Int × Int))) :=
  stats.foldl combineStep []

/-- Commits accumulated in the nested author → day mapping. -/
def nestedTotalCommits
    (acc : List (String × List (String × (Int × Int × Int)))) : Int :=
  (acc.map (fun p => (p.2.map (fun q => q.2.1)).sum)).sum

/-- Per-day triple sum of the records bucketed on a given day name. -/
def daySum (stats : List WeekRec) (day : String) : Int × Int × Int :=
  ((stats.filter (fun r => get_day_name (r.w.getD 0) = day)).map
    (fun r => (r.c.getD 0, r.a.getD 0, r.d.getD 0))).sum

/-! ### Lemmas about the day-of-week fold -/

theorem get_day_name_mem {ts : Int} (h : ts ≠ 0) :
    get_day_name ts ∈ day_names := by
  unfold get_day_name
  rw [if_neg h]
  have h7 : weekdayOf ts < 7 := by
    unfold weekdayOf
    have hlt : ((ts.fdiv 86400) + 3).emod 7 < 7 :=
      Int.emod_lt_of_pos _ (by decide)
    omega
  interval_cases hh : (weekdayOf ts) <;> decide

theorem get_day_name_ne_empty (ts : Int) : get_day_name ts ≠ "" := by
  by_cases h : ts = 0
  · subst h
    decide
  · have hmem := get_day_name_mem h
    have : ∀ dd ∈ day_names, dd ≠ "" := by decide
    exact this _ hmem

theorem get_day_name_ne_unknown {ts : Int} (h : ts ≠ 0) :
    get_day_name ts ≠ "Unknown" := by
  have hmem := get_day_name_mem h
  have : ∀ dd ∈ day_names, dd ≠ "Unknown" := by decide
  exact this _ hmem

theorem alAdjust_some_of_mem {l : List (κ × β)} {k : κ} (f : β → β)
    (h : k ∈ l.map Prod.fst) : ∃ r, alAdjust l k f = some r := by
  induction l with
  | nil => cases h
  | cons p rest ih =>
      obtain ⟨k0, v⟩ := p
      by_cases hk : k0 = k
      · exact ⟨(k0, f v) :: rest, by unfold alAdjust; rw [if_pos hk]⟩
      · rcases List.mem_cons.mp h with h2 | h2
        · exact absurd h2.symm hk
        · obtain ⟨r, hr⟩ := ih h2
          refine ⟨(k0, v) :: r, ?_⟩
          unfold alAdjust
          rw [if_neg hk, hr]
          rfl

theorem alAdjust_map_fst {l r : List (κ × β)} {k : κ} {f : β → β}
    (h : alAdjust l k f = some r) : r.map Prod.fst = l.map Prod.fst := by
  induction l generalizing r with
  | nil => cases h
  | cons p rest ih =>
      obtain ⟨k0, v⟩ := p
      by_cases hk : k0 = k
      · rw [show alAdjust ((k0, v) :: rest) k f = some ((k0, f v) :: rest)
          from by unfold alAdjust; rw [if_pos hk]] at h
        rcases (Option.some.inj h).symm with rfl
        rfl
      · rw [show alAdjust ((k0, v) :: rest) k f
            = (alAdjust rest k f).map (fun r2 => (k0, v) :: r2)
          from by simp only [alAdjust]; rw [if_neg hk]] at h
        cases h2 : alAdjust rest k f with
        | none =>
            rw [h2] at h
            cases h
        | some r2 =>
            rw [h2] at h
            rcases (Option.some.inj h).symm with rfl
            simp [ih h2]

theorem alAdjust_alGet {l r : List (κ × β)} {k : κ} {f : β → β}
    (h : alAdjust l k f = some r) (k' : κ) :
    alGet r k' = if k' = k then (alGet l k).map f else alGet l k' := by
  induction l generalizing r with
  | nil => cases h
  | cons p rest ih =>
      obtain ⟨k0, v⟩ := p
      by_cases hk : k0 = k
      · rw [show alAdjust ((k0, v) :: rest) k f = some ((k0, f v) :: rest)
          from by unfold alAdjust; rw [if_pos hk]] at h
        rcases (Option.some.inj h).symm with rfl
        subst hk
        by_cases hk' : k' = k0
        · subst hk'
          simp [alGet]
        · have hk2 : k0 ≠ k' := fun hh => hk' (Eq.symm hh)
          simp [alGet, hk2, hk']
      · rw [show alAdjust ((k0, v) :: rest) k f
            = (alAdjust rest k f).map (fun r2 => (k0, v) :: r2)
          from by simp only [alAdjust]; rw [if_neg hk]] at h
        cases h2 : alAdjust rest k f with
        | none =>
            rw [h2] at h
            cases h
        | some r2 =>
            rw [h2] at h
            rcases (Option.some.inj h).symm with rfl
            by_cases hk' : k0 = k'
            · subst hk'
              rw [show alGet ((k0, v) :: r2) k0 = some v from by simp [alGet]]
              rw [if_neg (fun hh : k0 = k => hk hh)]
              rw [show alGet ((k0, v) :: rest) k0 = some v from by simp [alGet]]
            · rw [show alGet ((k0, v) :: r2) k' = alGet r2 k'
                from by simp [alGet, hk']]
              rw [show alGet ((k0, v) :: rest) k' = alGet rest k'
                from by simp [alGet, hk']]
              rw [show alGet ((k0, v) :: rest) k = alGet rest k
                from by simp [alGet, hk]]
              exact ih h2

theorem alAdjust_sum {l r : List (κ × β)} {k : κ} {f : β → β} (S : β → Int)
    (t : Int) (hf : ∀ v, S (f v) = S v + t) (h : alAdjust l k f = some r) :
    (r.map (fun p => S p.2)).sum = (l.map (fun p => S p.2)).sum + t := by
  induction l generalizing r with
  | nil => cases h
  | cons p rest ih =>
      obtain ⟨k0, v⟩ := p
      by_cases hk : k0 = k
      · rw [show alAdjust ((k0, v) :: rest) k f = some ((k0, f v) :: rest)
          from by unfold alAdjust; rw [if_pos hk]] at h
        rcases (Option.some.inj h).symm with rfl
        simp only [List.map_cons, List.sum_cons, hf]
        ring
      · rw [show alAdjust ((k0, v) :: rest) k f
            = (alAdjust rest k f).map (fun r2 => (k0, v) :: r2)
          from by simp only [alAdjust]; rw [if_neg hk]] at h
        cases h2 : alAdjust rest k f with
        | none =>
            rw [h2] at h
            cases h
        | some r2 =>
            rw [h2] at h
            rcases (Option.some.inj h).symm with rfl
            simp only [List.map_cons, List.sum_cons, ih h2]
            ring

theorem alUpdate_sum (l : List (κ × β)) (k : κ) (f : β → β) (dflt : β)
    (S : β → Int) (t : Int) (hf : ∀ v, S (f v) = S v + t) (hd : S dflt = 0) :
    ((alUpdate l k f dflt).map (fun p => S p.2)).sum
      = (l.map (fun p => S p.2)).sum + t := by
  induction l with
  | nil => simp [alUpdate, hf, hd]
  | cons p rest ih =>
      obtain ⟨k0, v⟩ := p
      by_cases hk : k0 = k
      · simp only [alUpdate, if_pos hk, List.map_cons, List.sum_cons, hf]
        ring
      · simp only [alUpdate, if_neg hk, List.map_cons, List.sum_cons, ih]
        ring

theorem daySum_cons (r : WeekRec) (stats : List WeekRec) (day : String) :
    daySum (r :: stats) day =
      if get_day_name (r.w.getD 0) = day
      then (r.c.getD 0, r.a.getD 0, r.d.getD 0) + daySum stats day
      else daySum stats day := by
  unfold daySum
  rw [List.filter_cons]
  by_cases h : get_day_name (r.w.getD 0) = day <;> simp [h]

theorem combineStep_total
    (acc : List (String × List (String × (Int × Int × Int)))) (w : WeekRec) :
    nestedTotalCommits (combineStep acc w)
      = nestedTotalCommits acc
        + (if get_day_name (w.w.getD 0) ≠ "Unknown" then w.c.getD 0 else 0) := by
  unfold combineStep
  by_cases hd : get_day_name (w.w.getD 0) ≠ "Unknown"
  · rw [if_pos hd, if_pos hd]
    unfold nestedTotalCommits
    refine alUpdate_sum acc (w.author.getD "unknown") _ []
      (fun ds => (ds.map (fun q => q.2.1)).sum) (w.c.getD 0) ?_ rfl
    intro ds
    refine alUpdate_sum ds (get_day_name (w.w.getD 0)) _ (0, 0, 0)
      (fun tr => tr.1) (w.c.getD 0) ?_ rfl
    intro v
    show (v + (w.c.getD 0, w.a.getD 0, w.d.getD 0)).1 = v.1 + w.c.getD 0
    rw [Prod.fst_add]

  · rw [if_neg hd, if_neg hd]
    simp

theorem analyze_records_total (stats : List WeekRec)
    (h : ∀ r ∈ stats, r.w.getD 0 ≠ 0) :
    nestedTotalCommits (analyze_records stats)
      = (stats.map (fun r => r.c.getD 0)).sum := by
  suffices hs : ∀ (stats : List WeekRec)
      (acc : List (String × List (String × (Int × Int × Int)))),
      (∀ r ∈ stats, r.w.getD 0 ≠ 0) →
      nestedTotalCommits (stats.foldl combineStep acc)
        = nestedTotalCommits acc + (stats.map (fun r => r.c.getD 0)).sum by
    have h2 := hs stats [] h
    rw [show nestedTotalCommits [] = 0 from rfl, zero_add] at h2
    exact h2
  intro stats
  induction stats with
  | nil =>
      intro acc _
      simp
  | cons r stats ih =>
      intro acc hr
      rw [List.foldl_cons,
        ih (combineStep acc r) (fun x hx => hr x (List.mem_cons_of_mem _ hx)),
        combineStep_total,
        if_pos (get_day_name_ne_unknown (hr r (List.mem_cons_self _ _)))]
      simp only [List.map_cons, List.sum_cons]
      ring

theorem aggregate_fold_spec :
    ∀ (stats : List WeekRec) (ds0 : List (String × (Int × Int × Int))),
      (∀ r ∈ stats, r.w.getD 0 ≠ 0) →
      ds0.map Prod.fst = day_names →
      ∃ ds, stats.foldlM aggStep ds0 = .ok ds ∧
        ds.map Prod.fst = day_names ∧
        (∀ day, alGet ds day
          = (alGet ds0 day).map (fun t => t + daySum stats day)) ∧
        (ds.map (fun p => p.2.1)).sum
          = (ds0.map (fun p => p.2.1)).sum
            + (stats.map (fun r => r.c.getD 0)).sum := by
  intro stats
  induction stats with
  | nil =>
      intro ds0 _ hkeys
      refine ⟨ds0, rfl, hkeys, ?_, by simp⟩
      intro day
      cases ho : alGet ds0 day <;> simp [ho, daySum]
  | cons r stats ih =>
      intro ds0 hr hkeys
      have hw : r.w.getD 0 ≠ 0 := hr r (List.mem_cons_self _ _)
      have hmem : get_day_name (r.w.getD 0) ∈ ds0.map Prod.fst := by
        rw [hkeys]
        exact get_day_name_mem hw
      obtain ⟨ds1, hds1⟩ := alAdjust_some_of_mem
        (fun t => t + (r.c.getD 0, r.a.getD 0, r.d.getD 0)) hmem
      have hstep : aggStep ds0 r = .ok ds1 := by
        unfold aggStep updDay
        rw [if_pos (get_day_name_ne_empty _), hds1]
      obtain ⟨ds, hds, hkeys2, hget, hsum⟩ :=
        ih ds1 (fun x hx => hr x (List.mem_cons_of_mem _ hx))
          (by rw [alAdjust_map_fst hds1, hkeys])
      refine ⟨ds, ?_, hkeys2, ?_, ?_⟩
      · rw [List.foldlM_cons, hstep]
        exact hds
      · intro day
        rw [hget day, alAdjust_alGet hds1 day, daySum_cons]
        by_cases hdd : day = get_day_name (r.w.getD 0)
        · rw [if_pos hdd, if_pos hdd.symm]
          cases ho : alGet ds0 (get_day_name (r.w.getD 0)) <;>
            simp [hdd, ho, add_assoc]
        · rw [if_neg hdd, if_neg (fun hh => hdd (Eq.symm hh))]
      · have hf : ∀ v : Int × Int × Int,
            (v + (r.c.getD 0, r.a.getD 0, r.d.getD 0)).1 = v.1 + r.c.getD 0 := by
          intro v
          rw [Prod.fst_add]
        rw [hsum, alAdjust_sum (fun tr => tr.1) (r.c.getD 0) hf hds1]
        simp only [List.map_cons, List.sum_cons]
        ring

/-- C2.  Conservation of commit totals under the per-day-of-week
aggregation: for any stream of `WeekRec`s carrying a genuine week
timestamp, `aggregate_by_day_of_week` succeeds with exactly the seven
weekday buckets, each bucket holds precisely the summed triples of the
records whose UTC weekday matches (so every record lands in exactly one
bucket and none is dropped or double-counted), the bucket commit totals
sum to the input commit total, and the per-author aggregation of
`analyze_all_repos` conserves the same total. -/
theorem day_of_week_aggregation_conserves_commits (stats : List WeekRec)
    (h : ∀ r ∈ stats, r.w.getD 0 ≠ 0) :
    ∃ ds, aggregate_by_day_of_week stats = .ok ds ∧
      ds.map Prod.fst = day_names ∧
      (∀ day ∈ day_names, alGet ds day = some (daySum stats day)) ∧
      (ds.map (fun p => p.2.1)).sum = (stats.map (fun r => r.c.getD 0)).sum ∧
      nestedTotalCommits (analyze_records stats)
        = (stats.map (fun r => r.c.getD 0)).sum := by
  obtain ⟨ds, h1, h2, h3, h4⟩ := aggregate_fold_spec stats init_day_stats h rfl
  refine ⟨ds, h1, h2, ?_, ?_, analyze_records_total stats h⟩
  · intro day hday
    have hinit : alGet init_day_stats day = some ((0, 0, 0) : Int × Int × Int) := by
      have hall : ∀ d ∈ day_names,
          alGet init_day_stats d = some ((0, 0, 0) : Int × Int × Int) := by decide
      exact hall day hday
    rw [h3 day, hinit]
    simp [triple_zero_add]
  · rw [h4, show ((init_day_stats.map (fun p => p.2.1)).sum : Int) = 0 from rfl,
      zero_add]

def testWeekStats : List WeekRec :=
  [{ w := some 1704096000, c := some 10, a := some 100, d := some 50 },
   { w := some 1704182400, c := some 15, a := some 200, d := some 75 },
   { w := some 1704700800, c := some 5, a := some 50, d := some 25 }]

/-- C2 witness: the conservation theorem applied to three concrete
records (two Mondays and a Tuesday, the fixtures of
`test_weekly_stats.py`). -/
theorem day_of_week_aggregation_conserves_commits_witness :
    ∃ ds, aggregate_by_day_of_week testWeekStats = .ok ds ∧
      ds.map Prod.fst = day_names ∧
      (∀ day ∈ day_names, alGet ds day = some (daySum testWeekStats day)) ∧
      (ds.map (fun p => p.2.1)).sum
        = (testWeekStats.map (fun r => r.c.getD 0)).sum ∧
      nestedTotalCommits (analyze_records testWeekStats)
        = (testWeekStats.map (fun r => r.c.getD 0)).sum :=
  day_of_week_aggregation_conserves_commits testWeekStats (by decide)

/-- C3.  Evaluating the code at the failing input: a record whose `w`
key is absent (or 0) maps to day name "Unknown", which passes the
truthiness check `if day_name:` of line 101 and is then used as a key of
the seven-day dict, so `aggregate_by_day_of_week` raises
`KeyError: Unknown` instead of skipping the record; on the empty input
the seven zeroed buckets are returned as the spec describes. -/
theorem aggregate_by_day_of_week_unknown_keyerror :
    get_day_name 0 = "Unknown" ∧
    aggregate_by_day_of_week [({ c := some 1 } : WeekRec)]
      = .error "KeyError: Unknown" ∧
    aggregate_by_day_of_week [] = .ok init_day_stats ∧
    init_day_stats.map Prod.fst = day_names :=
  ⟨rfl, rfl, rfl, rfl⟩

/-! ### Calendar date conversion (`github_stats.py`)

`process_statistics` (line 84) and `aggregate_by_week` (line 119) call
`datetime.fromtimestamp(week['w'])` with no `tz=` argument, so the date
string depends on the deployment timezone; the conversion is modelled
with an explicit fixed UTC offset.  `civilFromDays` is the
proleptic-Gregorian conversion implemented by Python's `datetime`. -/

def civilFromDays (z0 : Int) : Int × Int × Int :=
  let z := z0 + 719468
  let era := z.fdiv 146097
  let doe := z - era * 146097
  let yoe := (doe - doe.fdiv 1460 + doe.fdiv 36524 - doe.fdiv 146096).fdiv 365
  let y := yoe + era * 400
  let doy := doe - (365 * yoe + yoe.fdiv 4 - yoe.fdiv 100)
  let mp := (5 * doy + 2).fdiv 153
  let d := doy - (153 * mp + 2).fdiv 5 + 1
  let m := mp + (if mp < 10 then 3 else (-9 : Int))
  (y + (if m ≤ 2 then 1 else 0), m, d)

def pad2 (n : Int) : String :=
  if n < 10 then "0" ++ toString n else toString n

/-- `strftime('%Y-%m-%d')`. -/
def dateString (days : Int) : String :=
  let ymd := civilFromDays days
  toString ymd.1 ++ "-" ++ pad2 ymd.2.1 ++ "-" ++ pad2 ymd.2.2

/-- `datetime.fromtimestamp(ts).strftime('%Y-%m-%d')` in a deployment
timezone at fixed offset `tzOffset` seconds from UTC. -/
def weekDateKey (tzOffset ts : Int) : String :=
  dateString ((ts + tzOffset).fdiv 86400)

structure RawWeek where
  w : Int
  c : Int
  a : Int
  d : Int
deriving DecidableEq

structure Contributor where
  login : String
  weeks : List RawWeek
deriving DecidableEq

structure ProcessedWeek where
  week : String
  commits : Int
  additions : Int
  deletions : Int
deriving DecidableEq

/-- `contributor['weeks'][-num_weeks:]` (all of `l` when `n = 0`). -/
def lastN {α : Type} (l : List α) (n : Nat) : List α :=
  if n = 0 then l else l.drop (l.length - n)

/-- `process_statistics` (lines 64-98), parameterised by the deployment
timezone offset that the bare `datetime.fromtimestamp` call uses. -/
def process_statistics (tzOffset : Int) (contributors : List Contributor)
    (num_weeks : Nat) : List (String × List ProcessedWeek) :=
  contributors.foldl
    (fun acc ctr =>
      let weeks := lastN ctr.weeks num_weeks
      let weekly_data := (weeks.filter (fun wk => 0 < wk.c)).map
        (fun wk => ⟨weekDateKey tzOffset wk.w, wk.c, wk.a, wk.d⟩)
      if weekly_data ≠ [] then
        alUpdate acc ctr.login (fun _ => weekly_data) weekly_data
      else acc)
    []

/-- C4, evaluated at the failing input: the date keys of
`process_statistics` are produced by local-time conversion and differ
between a UTC deployment and a UTC-8 deployment at timestamp
`1704096000` (2024-01-01T00:00:00Z), while `get_day_name` pins
`tz=timezone.utc` and gives "Monday" independent of any offset. -/
theorem process_statistics_local_time_dependence :
    get_day_name 1704096000 = "Monday" ∧
    weekDateKey 0 1704067200 = "2024-01-01" ∧
    weekDateKey (-28800) 1704067200 = "2023-12-31" ∧
    process_statistics 0 [⟨"alice", [⟨1704067200, 1, 2, 3⟩]⟩] 52
      = [("alice", [⟨"2024-01-01", 1, 2, 3⟩])] ∧
    process_statistics (-28800) [⟨"alice", [⟨1704067200, 1, 2, 3⟩]⟩] 52
      = [("alice", [⟨"2023-12-31", 1, 2, 3⟩])] ∧
    process_statistics 0 [⟨"alice", [⟨1704067200, 1, 2, 3⟩]⟩] 52
      ≠ process_statistics (-28800) [⟨"alice", [⟨1704067200, 1, 2, 3⟩]⟩] 52 := by
  refine ⟨rfl, by decide, by decide, by decide, by decide, by decide⟩

/-! ### Weekly trends (`calculate_weekly_trends`, `github_stats.py`) -/

structure WeekAggEntry where
  total_commits : Int
  total_additions : Int
  total_deletions : Int
deriving DecidableEq

/-- `weekly_aggregates[w]['total_commits']`. -/
def lookupTC (wa : List (String × WeekAggEntry)) (k : String) : Int :=
  ((alGet wa k).map (fun e => e.total_commits)).getD 0

/-- `sorted(weekly_aggregates.keys())` (line 183). -/
def sortedWeekKeys (wa : List (String × WeekAggEntry)) : List String :=
  (wa.map Prod.fst).insertionSort (· ≤ ·)

/-- `first_half_commits` (lines 213-217): the weeks before the floor
midpoint of the sorted key sequence. -/
def firstHalfCommits (wa : List (String × WeekAggEntry)) : Int :=
  (((sortedWeekKeys wa).take ((sortedWeekKeys wa).length / 2)).map
    (lookupTC wa)).sum

/-- `second_half_commits` (lines 218-221). -/
def secondHalfCommits (wa : List (String × WeekAggEntry)) : Int :=
  (((sortedWeekKeys wa).drop ((sortedWeekKeys wa).length / 2)).map
    (lookupTC wa)).sum

/-- Round-half-to-even on exact rationals, Python's `round`. -/
def roundHalfEven (q : ℚ) : ℤ :=
  let f := q.num.fdiv (q.den : Int)
  let r2 := 2 * (q.num - f * (q.den : Int))
  if r2 < (q.den : Int) then f
  else if (q.den : Int) < r2 then f + 1
  else if f % 2 = 0 then f else f + 1

/-- `round(x, 2)`. -/
def pyRound2 (q : ℚ) : ℚ := ((roundHalfEven (100 * q) : Int) : ℚ) / 100

/-- The growth-rate block of `calculate_weekly_trends` (lines 211-231). -/
def commit_growth_rate (wa : List (String × WeekAggEntry)) : ℚ :=
  if 4 ≤ (sortedWeekKeys wa).length then
    if 0 < firstHalfCommits wa then
      pyRound2 (((secondHalfCommits wa - firstHalfCommits wa : Int) : ℚ)
        / ((firstHalfCommits wa : Int) : ℚ))
    else 0
  else 0

def growthScenario : List (String × WeekAggEntry) :=
  [("2024-01-01", ⟨10, 0, 0⟩), ("2024-01-08", ⟨20, 0, 0⟩),
   ("2024-01-15", ⟨5, 0, 0⟩), ("2024-01-22", ⟨100, 0, 0⟩)]

theorem sortedWeekKeys_growthScenario :
    sortedWeekKeys growthScenario
      = ["2024-01-01", "2024-01-08", "2024-01-15", "2024-01-22"] := by
  simp only [sortedWeekKeys, growthScenario, List.map_cons, List.map_nil,
    List.insertionSort, List.orderedInsert, String.le_iff_toList_le]
  norm_num
  all_goals decide

theorem firstHalfCommits_growthScenario :
    firstHalfCommits growthScenario = 30 := by
  unfold firstHalfCommits
  rw [sortedWeekKeys_growthScenario]
  decide

theorem secondHalfCommits_growthScenario :
    secondHalfCommits growthScenario = 105 := by
  unfold secondHalfCommits
  rw [sortedWeekKeys_growthScenario]
  decide

/-- C5.  The commit growth rate is 0 for fewer than 4 weeks and for a
zero first-half commit sum; otherwise it is
`round((second - first) / first, 2)` over the halves obtained by
splitting the ascending-sorted week keys at the floor midpoint (the odd
week going to the second half); four weeks with commits
`[10, 20, 5, 100]` give `2.5`. -/
theorem commit_growth_rate_spec :
    (∀ wa : List (String × WeekAggEntry),
      (sortedWeekKeys wa).Sorted (· ≤ ·) ∧
      (sortedWeekKeys wa).Perm (wa.map Prod.fst) ∧
      (sortedWeekKeys wa).length = wa.length ∧
      ((sortedWeekKeys wa).take ((sortedWeekKeys wa).length / 2)).length
        = wa.length / 2 ∧
      ((sortedWeekKeys wa).drop ((sortedWeekKeys wa).length / 2)).length
        = wa.length - wa.length / 2) ∧
    (∀ wa : List (String × WeekAggEntry), wa.length < 4 →
      commit_growth_rate wa = 0) ∧
    (∀ wa : List (String × WeekAggEntry), firstHalfCommits wa = 0 →
      commit_growth_rate wa = 0) ∧
    (∀ wa : List (String × WeekAggEntry), 4 ≤ wa.length →
      0 < firstHalfCommits wa →
      commit_growth_rate wa =
        pyRound2 (((secondHalfCommits wa - firstHalfCommits wa : Int) : ℚ)
          / ((firstHalfCommits wa : Int) : ℚ))) ∧
    commit_growth_rate growthScenario = 5 / 2 := by
  have hlen : ∀ wa : List (String × WeekAggEntry),
      (sortedWeekKeys wa).length = wa.length := by
    intro wa
    rw [sortedWeekKeys, List.length_insertionSort, List.length_map]
  have hval : commit_growth_rate growthScenario = 5 / 2 := by
    unfold commit_growth_rate
    rw [if_pos (by rw [sortedWeekKeys_growthScenario]; decide),
      firstHalfCommits_growthScenario, secondHalfCommits_growthScenario,
      if_pos (by decide)]
    have harg : (((105 - 30 : Int) : ℚ) / ((30 : Int) : ℚ)) = 5 / 2 := by
      norm_num
    rw [harg]
    unfold pyRound2
    have h250 : (100 : ℚ) * (5 / 2) = 250 := by norm_num
    rw [h250]
    have hrhe : roundHalfEven 250 = 250 := by
      have hnum : (250 : ℚ).num = 250 := rfl
      have hden : ((250 : ℚ).den : Int) = 1 := rfl
      unfold roundHalfEven
      rw [hnum, hden]
      decide
    rw [hrhe]
    norm_num
  refine ⟨?_, ?_, ?_, ?_, hval⟩
  · intro wa
    refine ⟨List.sorted_insertionSort _ _, List.perm_insertionSort _ _,
      hlen wa, ?_, ?_⟩
    · rw [List.length_take, hlen wa]
      omega
    · rw [List.length_drop, hlen wa]
  · intro wa h
    unfold commit_growth_rate
    rw [if_neg]
    rw [hlen wa]
    omega
  · intro wa h0
    unfold commit_growth_rate
    rw [h0]
    simp
  · intro wa h4 hpos
    unfold commit_growth_rate
    rw [if_pos (by rw [hlen wa]; exact h4), if_pos hpos]

/-- C5 witness: the under-4-weeks and positive-first-half clauses at
concrete mappings. -/
theorem commit_growth_rate_spec_witness :
    commit_growth_rate [("2024-01-01", ⟨10, 0, 0⟩)] = 0 ∧
    commit_growth_rate growthScenario =
      pyRound2 (((secondHalfCommits growthScenario
          - firstHalfCommits growthScenario : Int) : ℚ)
        / ((firstHalfCommits growthScenario : Int) : ℚ)) :=
  ⟨commit_growth_rate_spec.2.1 [("2024-01-01", ⟨10, 0, 0⟩)] (by decide),
   commit_growth_rate_spec.2.2.2.1 growthScenario (by decide)
     (by rw [firstHalfCommits_growthScenario]; decide)⟩

/-! ### Peak week (`calculate_weekly_trends` lines 190-192) -/

def pwCommits (p : String × WeekAggEntry) : Int := p.2.total_commits

/-- Python's `max(items, key=...)`: keep the current element unless a
strictly greater one appears, so the first maximum wins. -/
def peakFold (best : String × WeekAggEntry)
    (xs : List (String × WeekAggEntry)) : String × WeekAggEntry :=
  xs.foldl (fun best p => if pwCommits best < pwCommits p then p else best) best

/-- `peak_week = max(weekly_aggregates.items(), key=λx: x[1]['total_commits'])`
(`max` on an empty dict would raise; the caller guards with
`if not weekly_aggregates: return {}`). -/
def peak_week (wa : List (String × WeekAggEntry)) :
    Option (String × WeekAggEntry) :=
  match wa with
  | [] => none
  | x :: xs => some (peakFold x xs)

theorem peakFold_max :
    ∀ (xs : List (String × WeekAggEntry)) (best : String × WeekAggEntry),
      pwCommits best ≤ pwCommits (peakFold best xs) ∧
      ∀ p ∈ xs, pwCommits p ≤ pwCommits (peakFold best xs) := by
  intro xs
  induction xs with
  | nil =>
      exact fun best => ⟨le_refl _, fun p hp => absurd hp (List.not_mem_nil p)⟩
  | cons x xs ih =>
      intro best
      have hfold : peakFold best (x :: xs)
          = peakFold (if pwCommits best < pwCommits x then x else best) xs := rfl
      have hb : pwCommits best
          ≤ pwCommits (if pwCommits best < pwCommits x then x else best) := by
        split
        · next hlt => exact le_of_lt hlt
        · exact le_refl _
      have hx : pwCommits x
          ≤ pwCommits (if pwCommits best < pwCommits x then x else best) := by
        split
        · exact le_refl _
        · next hlt => omega
      rw [hfold]
      refine ⟨le_trans hb (ih _).1, ?_⟩
      intro p hp
      rcases List.mem_cons.mp hp with rfl | hp2
      · exact le_trans hx (ih _).1
      · exact (ih _).2 p hp2

theorem peakFold_find :
    ∀ (xs : List (String × WeekAggEntry)) (best : String × WeekAggEntry),
      (best :: xs).find?
          (fun p => decide (pwCommits (peakFold best xs) ≤ pwCommits p))
        = some (peakFold best xs) := by
  intro xs
  induction xs with
  | nil =>
      intro best
      simp [peakFold, List.find?]
  | cons x xs ih =>
      intro best
      by_cases hlt : pwCommits best < pwCommits x
      · have hfold : peakFold best (x :: xs) = peakFold x xs := by
          show peakFold (if pwCommits best < pwCommits x then x else best) xs = _
          rw [if_pos hlt]
        have hnb : ¬ pwCommits (peakFold x xs) ≤ pwCommits best := by
          have := (peakFold_max xs x).1
          omega
        rw [hfold]
        rw [List.find?_cons_of_neg _ (by simpa using hnb)]
        exact ih x
      · have hfold : peakFold best (x :: xs) = peakFold best xs := by
          show peakFold (if pwCommits best < pwCommits x then x else best) xs = _
          rw [if_neg hlt]
        rw [hfold]
        by_cases hb : pwCommits (peakFold best xs) ≤ pwCommits best
        · have hIH := ih best
          rw [List.find?_cons_of_pos _ (by simpa using hb)] at hIH ⊢
          exact hIH
        · have hIH := ih best
          rw [List.find?_cons_of_neg _ (by simpa using hb)] at hIH
          rw [List.find?_cons_of_neg _ (by simpa using hb)]
          have hnx : ¬ pwCommits (peakFold best xs) ≤ pwCommits x := by
            omega
          rw [List.find?_cons_of_neg _ (by simpa using hnx)]
          exact hIH

/-- C8 (amended).  The reported peak week attains the maximal total
commits, and among the weeks attaining it the one reported is the first
in the mapping's iteration (insertion) order — not necessarily the
chronologically earliest. -/
theorem peak_week_spec (x : String × WeekAggEntry)
    (xs : List (String × WeekAggEntry)) :
    ∃ m, peak_week (x :: xs) = some m ∧
      (∀ p ∈ x :: xs, pwCommits p ≤ pwCommits m) ∧
      (x :: xs).find? (fun p => decide (pwCommits m ≤ pwCommits p)) = some m := by
  refine ⟨peakFold x xs, rfl, ?_, peakFold_find xs x⟩
  intro p hp
  rcases List.mem_cons.mp hp with rfl | hp2
  · exact (peakFold_max xs p).1
  · exact (peakFold_max xs x).2 p hp2

def peakTieExample : List (String × WeekAggEntry) :=
  [("2024-01-08", ⟨5, 0, 0⟩), ("2024-01-01", ⟨5, 0, 0⟩)]

/-- C8 counterexample: two weeks tie at 5 total commits; the code
reports the first-inserted week "2024-01-08" although "2024-01-01" also
attains the maximum and is chronologically earlier, so ties are not
broken by earliest week. -/
theorem peak_week_tie_counterexample :
    (peak_week peakTieExample).map Prod.fst = some "2024-01-08" ∧
    ("2024-01-01", (⟨5, 0, 0⟩ : WeekAggEntry)) ∈ peakTieExample ∧
    (∀ p ∈ peakTieExample, p.2.total_commits ≤ 5) ∧
    ("2024-01-01" : String) < "2024-01-08" := by
  refine ⟨rfl, by decide, by decide, ?_⟩
  rw [String.lt_iff_toList_lt]
  decide

/-- C8 witness: the amended tie-break rule at the concrete tied
mapping. -/
theorem peak_week_spec_witness :
    ∃ m, peak_week (("2024-01-08", (⟨5, 0, 0⟩ : WeekAggEntry)) ::
        [("2024-01-01", (⟨5, 0, 0⟩ : WeekAggEntry))]) = some m ∧
      (∀ p ∈ ("2024-01-08", (⟨5, 0, 0⟩ : WeekAggEntry)) ::
          [("2024-01-01", (⟨5, 0, 0⟩ : WeekAggEntry))],
        pwCommits p ≤ pwCommits m) ∧
      (("2024-01-08", (⟨5, 0, 0⟩ : WeekAggEntry)) ::
          [("2024-01-01", (⟨5, 0, 0⟩ : WeekAggEntry))]).find?
        (fun p => decide (pwCommits m ≤ pwCommits p)) = some m :=
  peak_week_spec ("2024-01-08", ⟨5, 0, 0⟩) [("2024-01-01", ⟨5, 0, 0⟩)]

/-! ### HTTP error handling (`pr_metrics.py`, `github_stats.py`)

The network is modelled as a stream of responses indexed by attempt
number; the embeddings capture the status-code decision logic of
`_make_search_request` and `fetch_contributor_stats`. -/

structure HttpResponse (α : Type) where
  status : Nat
  resetTime : Nat := 0
  body : α

structure SearchBody where
  items : List String
  total_count : Nat
deriving DecidableEq

/-- The retry loop of `PRMetrics._make_search_request` (lines 79-108):
403 with a rate-limit reset header sleeps and retries; 422 returns the
empty result; any other non-success status raises through
`raise_for_status`, is caught, and is retried until the attempts are
exhausted; a success returns the body; an exhausted loop returns the
empty result (line 108). -/
def searchAttempts (resps : Nat → HttpResponse SearchBody) :
    Nat → Nat → Except String SearchBody
  | _, 0 => .ok ⟨[], 0⟩
  | i, fuel + 1 =>
      let r := resps i
      if r.status = 403 ∧ r.resetTime ≠ 0 then searchAttempts resps (i + 1) fuel
      else if r.status = 422 then .ok ⟨[], 0⟩
      else if 400 ≤ r.status then
        (if fuel = 0 then .error ("HTTPError: " ++ toString r.status)
         else searchAttempts resps (i + 1) fuel)
      else .ok r.body

def make_search_request (resps : Nat → HttpResponse SearchBody) :
    Except String SearchBody :=
  searchAttempts resps 0 3

/-- The 202 retry loop of `fetch_contributor_stats` (lines 45-54): up to
five further requests while GitHub is still computing. -/
def retry202 {α : Type} (resps : Nat → HttpResponse α) :
    Nat → Nat → HttpResponse α
  | i, 0 => resps i
  | i, fuel + 1 =>
      let r := resps i
      if r.status ≠ 202 then r
      else if fuel = 0 then r
      else retry202 resps (i + 1) fuel

def apos : String := ⟨[Char.ofNat 39]⟩

/-- `fetch_contributor_stats` (lines 25-61). -/
def fetch_contributor_stats (owner repo : String)
    (resps : Nat → HttpResponse (List Contributor)) :
    Except String (List Contributor) :=
  let response := if (resps 0).status ≠ 202 then resps 0 else retry202 resps 1 5
  if response.status = 404 then
    .error ("Repository " ++ owner ++ "/" ++ repo ++
      " not found. Please check the repository name and ensure it" ++
      apos ++ "s public or you have access.")
  else if response.status ≠ 200 then
    .error ("Failed to fetch data: " ++ toString response.status)
  else .ok response.body

/-- C9.  A 422 validation failure on a PR search query yields the empty
result set without an error, while a 404 when fetching contributor
stats is fatal: the fetch returns the descriptive not-found error and
never data. -/
theorem search_422_empty_and_stats_404_fatal :
    (∀ resps : Nat → HttpResponse SearchBody,
      (resps 0).status = 422 →
      make_search_request resps = .ok ⟨[], 0⟩) ∧
    (∀ (owner repo : String) (resps : Nat → HttpResponse (List Contributor)),
      (resps 0).status = 404 →
      fetch_contributor_stats owner repo resps =
        .error ("Repository " ++ owner ++ "/" ++ repo ++
          " not found. Please check the repository name and ensure it" ++
          apos ++ "s public or you have access.") ∧
      ∀ data, fetch_contributor_stats owner repo resps ≠ .ok data) := by
  constructor
  · intro resps h
    unfold make_search_request searchAttempts
    rw [if_neg (by rw [h]; rintro ⟨hc, _⟩; cases hc), if_pos h]
  · intro owner repo resps h
    have hfinal :
        (if (resps 0).status ≠ 202 then resps 0 else retry202 resps 1 5)
          = resps 0 := by
      rw [if_pos (by rw [h]; decide)]
    constructor
    · unfold fetch_contributor_stats
      rw [hfinal, if_pos h]
    · intro data hdata
      unfold fetch_contributor_stats at hdata
      rw [hfinal, if_pos h] at hdata
      cases hdata

/-- C9 witness: a constant-422 search stream returns the empty result;
a constant-404 stats stream returns the not-found error. -/
theorem search_422_empty_and_stats_404_fatal_witness :
    make_search_request (fun _ => ⟨422, 0, ⟨["pr1"], 1⟩⟩) = .ok ⟨[], 0⟩ ∧
    (fetch_contributor_stats "octo" "repo" (fun _ => ⟨404, 0, []⟩) =
        .error ("Repository " ++ "octo" ++ "/" ++ "repo" ++
          " not found. Please check the repository name and ensure it" ++
          apos ++ "s public or you have access.") ∧
      ∀ data, fetch_contributor_stats "octo" "repo" (fun _ => ⟨404, 0, []⟩)
        ≠ .ok data) :=
  ⟨search_422_empty_and_stats_404_fatal.1 _ rfl,
   search_422_empty_and_stats_404_fatal.2 "octo" "repo" _ rfl⟩

end Commits
